import Mathlib

/-!
Verification development for the blur library (sampling engine and Markov
graph).  Python numeric values are modelled as rationals, random draws as
explicit streams of rationals, and Python exceptions as an error type.
-/

namespace Blur

/-- Exceptions raised by code in rand.py, modelled as values. -/
inductive RandErr where
  | probabilityUndefined
  | valueError
  | indexError
  | assertionError
  | typeError
  deriving DecidableEq, Repr

/-- Embedding of rand._linear_interp (default round_result=False; the int
conversion of whole-number results is the identity on rational values).
Walks adjacent point pairs, skipping pairs that share an x value, and
interpolates on the first segment containing test_x.  none models the
ProbabilityUndefinedError raise when no segment contains test_x. -/
def linearInterp : List (ℚ × ℚ) → ℚ → Option ℚ
  | p :: q :: rest, x =>
    if p.1 = q.1 then linearInterp (q :: rest) x
    else if p.1 ≤ x ∧ x ≤ q.1 then
      some (((q.2 - p.2) / (q.1 - p.1)) * x + (p.2 - ((q.2 - p.2) / (q.1 - p.1)) * p.1))
    else linearInterp (q :: rest) x
  | _, _ => none

/-- Embedding of rand._point_under_curve: true iff interpolation succeeds and
lies strictly above the point; a domain error is treated as false. -/
def pointUnderCurve (curve : List (ℚ × ℚ)) (point : ℚ × ℚ) : Bool :=
  match linearInterp curve point.1 with
  | some y => decide (point.2 < y)
  | none => false

/-- Python max() over a list (left fold of the binary max), none on empty. -/
def listMax : List ℚ → Option ℚ
  | [] => none
  | x :: xs => some (xs.foldl max x)

/-- Python inequality x != b where b is an optional bound: comparison with
None is always true. -/
def neOptBound (x : ℚ) : Option ℚ → Bool
  | none => true
  | some m => decide (x ≠ m)

/-- First endpoint conditional of rand.bound_weights: re-insert the minimum
endpoint when the filtered list lost its original front.  Models the Python
IndexError when the filtered list (or weights) is empty and the TypeError
that inserting with a missing bound would raise. -/
def attachFront (weights bounded : List (ℚ × ℚ)) (mn : Option ℚ) :
    Except RandErr (List (ℚ × ℚ)) :=
  match bounded.head?, weights.head? with
  | none, _ => .error .indexError
  | some _, none => .error .indexError
  | some b0, some w0 =>
    if w0.1 < b0.1 ∧ neOptBound b0.1 mn then
      match mn with
      | none => .error .typeError
      | some m =>
        match linearInterp weights m with
        | some y => .ok ((m, y) :: bounded)
        | none => .error .probabilityUndefined
    else .ok bounded

/-- Second endpoint conditional of rand.bound_weights: append the maximum
endpoint when the filtered list lost its original back. -/
def attachBack (weights bounded2 : List (ℚ × ℚ)) (mx : Option ℚ) :
    Except RandErr (List (ℚ × ℚ)) :=
  match bounded2.getLast?, weights.getLast? with
  | some bl, some wl =>
    if bl.1 < wl.1 ∧ neOptBound bl.1 mx then
      match mx with
      | none => .error .typeError
      | some m =>
        match linearInterp weights m with
        | some y => .ok (bounded2 ++ [(m, y)])
        | none => .error .probabilityUndefined
    else .ok bounded2
  | _, _ => .error .indexError

/-- Second half of rand.bound_weights: after filtering, re-attach both
endpoints. -/
def attachEnds (weights bounded : List (ℚ × ℚ)) (mn mx : Option ℚ) :
    Except RandErr (List (ℚ × ℚ)) :=
  match attachFront weights bounded mn with
  | .error e => .error e
  | .ok bounded2 => attachBack weights bounded2 mx

/-- The filtering step of rand.bound_weights: remove weights whose outcome
lies outside whichever bounds are supplied. -/
def bwFiltered (weights : List (ℚ × ℚ)) : Option ℚ → Option ℚ → List (ℚ × ℚ)
  | some m, some M => weights.filter (fun bw => m ≤ bw.1 ∧ bw.1 ≤ M)
  | some m, none => weights.filter (fun bw => m ≤ bw.1)
  | none, some M => weights.filter (fun bw => bw.1 ≤ M)
  | none, none => weights

/-- Embedding of rand.bound_weights.  Optional bounds are Option values;
the ValueError when maximum < minimum (both supplied) is an error result;
supplying neither bound returns the list unchanged. -/
def bound_weights (weights : List (ℚ × ℚ)) (mn mx : Option ℚ) :
    Except RandErr (List (ℚ × ℚ)) :=
  match mn, mx with
  | some m, some M =>
    if M < m then .error .valueError
    else attachEnds weights (bwFiltered weights (some m) (some M)) mn mx
  | some m, none =>
    attachEnds weights (bwFiltered weights (some m) none) mn mx
  | none, some M =>
    attachEnds weights (bwFiltered weights none (some M)) mn mx
  | none, none => .ok weights

/-- Cumulative walk inside rand.weighted_choice: while i < len(weights),
return the first index whose cumulative interval contains the sample; the
fall-through raises AssertionError. -/
def wcWalk {α : Type} : List (α × ℚ) → ℚ → ℚ → Nat → Except RandErr (Nat × α)
  | [], _, _, _ => .error .assertionError
  | (a, w) :: rest, u, pos, i =>
    if pos ≤ u ∧ u ≤ pos + w then .ok (i, a)
    else wcWalk rest u (pos + w) (i + 1)

/-- Embedding of rand.weighted_choice (as_index_and_value_tuple=True form;
the plain form just drops the index).  The uniform draw sample in
[0, prob_sum] is passed in as u. -/
def weighted_choice {α : Type} (weights : List (α × ℚ)) (u : ℚ) :
    Except RandErr (Nat × α) :=
  if weights.length = 0 then .error .valueError
  else
    let probSum := (weights.map (fun w => w.2)).sum
    if probSum ≤ 0 then .error .probabilityUndefined
    else wcWalk weights u 0 0

/-- Sum of the strengths of the links of `weights` before index i
(the cumulative position at which option i's interval starts). -/
def cumAt {α : Type} (weights : List (α × ℚ)) (i : Nat) : ℚ :=
  ((weights.take i).map (fun w => w.2)).sum

/-- Loop of rand.weighted_order: while the working list is non-empty, pick
via weighted_choice with the draw r k scaled by the current strength sum
(random.uniform(0, S) = S * random()), append the outcome and delete the
picked index. -/
def woLoop {α : Type} (working : List (α × ℚ)) (r : Nat → ℚ) (k : Nat)
    (out : List α) : Except RandErr (List α) :=
  match hw : working with
  | [] => .ok out
  | _ :: _ =>
    let probSum := (working.map (fun w => w.2)).sum
    match weighted_choice working (r k * probSum) with
    | .error e => .error e
    | .ok (i, a) =>
      if h : i < working.length then
        woLoop (working.eraseIdx i) r (k + 1) (out ++ [a])
      else .error .indexError
termination_by working.length
decreasing_by
  rw [List.length_eraseIdx_of_lt h, hw]
  simp only [List.length_cons]
  rw [hw] at h
  simp only [List.length_cons] at h
  omega

/-- Embedding of rand.weighted_order.  r is the stream of unit random draws
feeding the successive weighted_choice calls. -/
def weighted_order {α : Type} (weights : List (α × ℚ)) (r : Nat → ℚ) :
    Except RandErr (List α) :=
  if weights.length = 0 then .ok []
  else if weights.any (fun w => w.2 ≤ 0) then .error .probabilityUndefined
  else woLoop weights r 0 []

/-- Stable insertion into an ascending-sorted list: the new element goes
after every element whose key is less than or equal to its own. -/
def insertSorted {β K : Type} [LinearOrder K] (key : β → K) (x : β) :
    List β → List β
  | [] => [x]
  | y :: ys => if key y ≤ key x then y :: insertSorted key x ys else x :: y :: ys

/-- Stable ascending sort by key (the semantics of Python sorted with a key
function). -/
def sortByKey {β K : Type} [LinearOrder K] (key : β → K) (l : List β) :
    List β :=
  l.foldl (fun acc x => insertSorted key x acc) []

/-- The sort performed at the top of rand.weighted_rand: Python sorted() is a
stable sort by the outcome (x) value. -/
def sortWeights (weights : List (ℚ × ℚ)) : List (ℚ × ℚ) :=
  sortByKey (fun a => a.1) weights

/-- The sample drawn at one attempt of rand.weighted_rand's rejection loop:
random.uniform(lo, hi) is lo + (hi - lo) * random(), with xs k and ys k the
two unit draws of attempt k.  The box is [x_min, x_max] x [0, y_max] of the
sorted curve. -/
def wrSample (curve : List (ℚ × ℚ)) (xs ys : Nat → ℚ) (k : Nat) : ℚ × ℚ :=
  let xMin := (curve.headI).1
  let xMax := ((curve.getLast?).getD (0, 0)).1
  let yMax := (listMax (curve.map (fun p => p.2))).getD 0
  (xMin + (xMax - xMin) * xs k, 0 + (yMax - 0) * ys k)

/-- Rejection loop of rand.weighted_rand: up to the given fuel (500000 at the
top call) attempts, accept the x of the first sample under the curve; on
exhaustion fall back (with a warning) to the x of the weight point at the
uniformly drawn index c of the sorted list (random.choice). -/
def wrLoop (curve : List (ℚ × ℚ)) (xs ys : Nat → ℚ) (c : Nat) :
    Nat → Nat → ℚ
  | 0, _ => ((curve.getD c (0, 0)).1)
  | fuel + 1, k =>
    if pointUnderCurve curve (wrSample curve xs ys k) then (wrSample curve xs ys k).1
    else wrLoop curve xs ys c fuel (k + 1)

/-- Embedding of rand.weighted_rand (round_result=False).  xs and ys are the
unit draw streams of the rejection loop and c the index drawn by the
random.choice fallback.  A single weight returns its outcome directly; the
empty list raises IndexError at weights[0] (after sorting). -/
def weighted_rand (weights : List (ℚ × ℚ)) (xs ys : Nat → ℚ) (c : Nat) :
    Except RandErr ℚ :=
  if weights.length = 1 then .ok ((weights.headI).1)
  else
    match sortWeights weights with
    | [] => .error .indexError
    | w0 :: rest =>
      match listMax ((w0 :: rest).map (fun p => p.2)) with
      | none => .error .valueError
      | some _ => .ok (wrLoop (w0 :: rest) xs ys c 500000 0)

/-!
### Markov node and graph model (blur/markov/node.py and graph.py)

Python Node objects are mutable and aliased; we model the collection of all
allocated nodes as a World, a list of node records addressed by index.  Link
targets are node indices (Python object identity).  A Graph holds a list of
node indices plus that world.
-/

/-- A link list entry: (target node index, weight). -/
abbrev LinkL := List (Nat × ℚ)

/-- Embedding of node.Node: its value and its outgoing link list.  (The
self_destruct flag plays no role in any of the operations modelled here.) -/
structure NodeD (V : Type) where
  value : V
  links : LinkL
  deriving DecidableEq, Repr

/-- The collection of allocated nodes; a node's identity is its index. -/
abbrev World (V : Type) := List (NodeD V)

/-- Embedding of graph.Graph: the node list (indices into the world) and the
world of nodes it manipulates. -/
structure GraphSt (V : Type) where
  world : World V
  nodeList : List Nat
  deriving DecidableEq, Repr

/-- The link list of node i, empty if i is not an allocated index. -/
def getLinks {V : Type} (w : World V) (i : Nat) : LinkL :=
  match w[i]? with
  | some nd => nd.links
  | none => []

/-- Replace node i's link list by f applied to it (identity if i is not an
allocated index). -/
def modifyLinks {V : Type} (w : World V) (i : Nat) (f : LinkL → LinkL) :
    World V :=
  match w[i]? with
  | some nd => w.set i ⟨nd.value, f nd.links⟩
  | none => w

/-- Inner loop of node.Node.add_link for one target: bump the weight of the
first existing link to the target (the Python loop breaks there). -/
def bumpFirst : LinkL → Nat → ℚ → LinkL
  | [], _, _ => []
  | l :: ls, t, wt => if l.1 = t then (l.1, l.2 + wt) :: ls else l :: bumpFirst ls t wt

/-- Embedding of node.Node.add_link for a single target: if a link to the
target exists, add the weight to (the first) one; otherwise append a new
link. -/
def addLink (ls : LinkL) (t : Nat) (wt : ℚ) : LinkL :=
  if ls.any (fun l => l.1 = t) then bumpFirst ls t wt else ls ++ [(t, wt)]

/-- node.Node.add_link of node src to one target, on the world. -/
def addLinkW {V : Type} (w : World V) (src t : Nat) (wt : ℚ) : World V :=
  modifyLinks w src (fun ls => addLink ls t wt)

/-- node.Node.add_link with a list of targets. -/
def addLinkList {V : Type} (w : World V) (src : Nat) (targets : List Nat)
    (wt : ℚ) : World V :=
  targets.foldl (fun acc t => addLinkW acc src t wt) w

/-- The value of node i, if allocated. -/
def nodeValue {V : Type} (w : World V) (i : Nat) : Option V :=
  match w[i]? with
  | some nd => some nd.value
  | none => none

/-- Bump the weight of the first link whose target satisfies p. -/
def bumpFirstBy (p : Nat → Bool) : LinkL → ℚ → LinkL
  | [], _ => []
  | l :: ls, wt => if p l.1 then (l.1, l.2 + wt) :: ls else bumpFirstBy p ls wt |> (l :: ·)

/-- One step of node.Node.merge_links_from for the link (t, wt) of the other
node: merge into the first existing link with matching target (by identity,
or by value when mergeSameValueTargets), else fall through to add_link. -/
def mlfStep {V : Type} [DecidableEq V] (mergeSameValueTargets : Bool)
    (w : World V) (self : Nat) (l : Nat × ℚ) : World V :=
  if mergeSameValueTargets then
    if (getLinks w self).any (fun e => nodeValue w e.1 = nodeValue w l.1) then
      modifyLinks w self
        (fun ls => bumpFirstBy (fun t => nodeValue w t = nodeValue w l.1) ls l.2)
    else addLinkW w self l.1 l.2
  else
    if (getLinks w self).any (fun e => e.1 = l.1) then
      modifyLinks w self (fun ls => bumpFirst ls l.1 l.2)
    else addLinkW w self l.1 l.2

/-- Embedding of node.Node.merge_links_from (self and other distinct nodes:
the loop reads other's link list, which self's mutations do not touch). -/
def merge_links_from {V : Type} [DecidableEq V] (w : World V)
    (self other : Nat) (mergeSameValueTargets : Bool) : World V :=
  (getLinks w other).foldl (fun acc l => mlfStep mergeSameValueTargets acc self l) w

/-- Embedding of node.Node.add_reciprocal_link: for each target add a link
self -> t and a link t -> self of the same weight. -/
def add_reciprocal_link {V : Type} (w : World V) (self : Nat)
    (targets : List Nat) (wt : ℚ) : World V :=
  targets.foldl (fun acc t => addLinkW (addLinkW acc self t wt) t self wt) w

/-- Embedding of graph.Graph.remove_node: no-op when absent; else erase the
first occurrence from the node list and strip links targeting the node from
every remaining listed node. -/
def remove_node {V : Type} (st : GraphSt V) (node : Nat) : GraphSt V :=
  if node ∈ st.nodeList then
    let nl := st.nodeList.erase node
    ⟨nl.foldl (fun w n => modifyLinks w n (fun ls => ls.filter (fun l => l.1 ≠ node))) st.world,
     nl⟩
  else st

/-- Embedding of graph.Graph.merge_nodes (keep and kill distinct): (1) copy
kill's links whose target is in the node list onto keep via add_link; (2) for
every listed node, merge the first link targeting kill into a link to keep;
(3) remove kill. -/
def merge_nodes {V : Type} (st : GraphSt V) (keep kill : Nat) : GraphSt V :=
  let w1 := (getLinks st.world kill).foldl
    (fun w l => if l.1 ∈ st.nodeList then addLinkW w keep l.1 l.2 else w) st.world
  let w2 := st.nodeList.foldl
    (fun w n =>
      match (getLinks w n).find? (fun l => l.1 = kill) with
      | some l => addLinkW w n keep l.2
      | none => w) w1
  remove_node ⟨w2, st.nodeList⟩ kill

/-- Python round-half-to-even of a rational to an integer (round()). -/
def pyRound (q : ℚ) : Int :=
  if q - ⌊q⌋ < 1 / 2 then ⌊q⌋
  else if 1 / 2 < q - ⌊q⌋ then ⌊q⌋ + 1
  else if ⌊q⌋ % 2 = 0 then ⌊q⌋ else ⌊q⌋ + 1

/-- Python round(x, 2) on a rational (exact-arithmetic model of the two
decimal digit rounding used by feather_links). -/
def round2 (q : ℚ) : ℚ := (pyRound (q * 100) : ℚ) / 100

/-- Inner loop of graph.Graph.feather_links over the neighbor's live link
list: iterate by index (the list may be the one being extended when the
neighbor is the node itself); fuel is the list length at entry.  tsum is the
neighbor's weight sum computed before the loop, fw the relative share of the
neighbor. -/
def featherInner {V : Type} (factor : ℚ) (includeSelf : Bool) (n t : Nat)
    (fw tsum : ℚ) : Nat → World V → Nat → World V
  | 0, w, _ => w
  | fuel + 1, w, j =>
    let tls := getLinks w t
    if j < tls.length then
      let l := tls.getD j (0, 0)
      let w2 :=
        if ¬includeSelf ∧ l.1 = n then w
        else addLinkW w n l.1 (round2 (l.2 / tsum * fw * factor))
      featherInner factor includeSelf n t fw tsum fuel w2 (j + 1)
    else w

/-- Body of feather_node in graph.Graph.feather_links for node n: iterate a
snapshot of n's links; for each neighbor recompute its weight sum and copy
its links onto n with proportional weights. -/
def featherNode {V : Type} (factor : ℚ) (includeSelf : Bool) (w : World V)
    (n : Nat) : World V :=
  let snapshot := getLinks w n
  let nws := (snapshot.map (fun l => l.2)).sum
  snapshot.foldl
    (fun acc l =>
      let tsum := ((getLinks acc l.1).map (fun e => e.2)).sum
      featherInner factor includeSelf n l.1 (l.2 / nws) tsum
        (getLinks acc l.1).length acc 0) w

/-- Embedding of graph.Graph.feather_links: feather every node in the node
list in order. -/
def feather_links {V : Type} (st : GraphSt V) (factor : ℚ)
    (includeSelf : Bool) : GraphSt V :=
  ⟨st.nodeList.foldl (fun w n => featherNode factor includeSelf w n) st.world,
   st.nodeList⟩

/-- Invariant: no two links of one link list target the same node. -/
def NoDupTargets (ls : LinkL) : Prop := (ls.map (fun l => l.1)).Nodup

/-- Invariant over the whole world: every node's link list has pairwise
distinct targets. -/
def WorldInv {V : Type} (w : World V) : Prop := ∀ nd ∈ w, NoDupTargets nd.links

instance : DecidablePred NoDupTargets := fun ls =>
  inferInstanceAs (Decidable (List.Nodup _))

instance {V : Type} [DecidableEq V] (w : World V) : Decidable (WorldInv w) :=
  inferInstanceAs (Decidable (∀ nd ∈ w, NoDupTargets nd.links))

/-- Total outgoing weight of the link list ls to target t (0 when no link
targets t; the weight of the unique such link under NoDupTargets). -/
def wToL (ls : LinkL) (t : Nat) : ℚ :=
  ((ls.filter (fun l => l.1 = t)).map (fun l => l.2)).sum

/-- Total outgoing weight of node a to node b in the world. -/
def wTo {V : Type} (w : World V) (a b : Nat) : ℚ := wToL (getLinks w a) b

/-!
### Tokenizer of graph.Graph.from_string

The regex (with the default group markers) is
r'\<\<(.+)\>\>|([^\w\s]+)\B|([\S]+\b)'; re.findall scans left to right, at
each position trying the three alternatives in order, each greedy with
backtracking, advancing one character when none matches.
-/

/-- Python regex word character (ASCII part of \w). -/
def isWordChar (c : Char) : Bool := c.isAlphanum || c = '_'

/-- Python regex whitespace character \s. -/
def isSpaceChar (c : Char) : Bool := c.isWhitespace

/-- A character matched by [^\w\s]. -/
def isPunctChar (c : Char) : Bool := !(isWordChar c) && !(isSpaceChar c)

/-- Whether the character at position p is a word character (out of range
counts as not a word character). -/
def isWordAt (s : List Char) (p : Nat) : Bool :=
  match s[p]? with
  | some c => isWordChar c
  | none => false

/-- Regex word boundary \b between positions p-1 and p. -/
def isBoundaryAt (s : List Char) (p : Nat) : Bool :=
  (if p = 0 then false else isWordAt s (p - 1)) != isWordAt s p

/-- Length of the maximal run of characters satisfying pred starting at p. -/
def runLen (pred : Char → Bool) (s : List Char) (p : Nat) : Nat :=
  ((s.drop p).takeWhile pred).length

/-- Greedy matching with backtracking: the largest k with 1 ≤ k ≤ maxK
satisfying cond. -/
def backtrack (cond : Nat → Bool) : Nat → Option Nat
  | 0 => none
  | k + 1 => if cond (k + 1) then some (k + 1) else backtrack cond k

/-- First regex alternative \<\<(.+)\>\> at position p: both opening marker
characters, a greedy non-newline run as group content, then the closing
marker.  Returns (group content, total match length). -/
def altGroup (s : List Char) (p : Nat) : Option (List Char × Nat) :=
  if s[p]? = some '<' ∧ s[p + 1]? = some '<' then
    match backtrack
        (fun j => decide (s[p + 2 + j]? = some '>') && decide (s[p + 2 + j + 1]? = some '>'))
        (runLen (fun c => c ≠ '\n') s (p + 2)) with
    | some j => some (((s.drop (p + 2)).take j, j + 4))
    | none => none
  else none

/-- Second regex alternative ([^\w\s]+)\B at position p: a greedy punctuation
run whose end is not a word boundary.  Returns the match length. -/
def altPunct (s : List Char) (p : Nat) : Option Nat :=
  backtrack (fun k => !(isBoundaryAt s (p + k))) (runLen isPunctChar s p)

/-- Third regex alternative ([\S]+\b) at position p: a greedy non-whitespace
run ending at a word boundary.  Returns the match length. -/
def altWord (s : List Char) (p : Nat) : Option Nat :=
  backtrack (fun k => isBoundaryAt s (p + k)) (runLen (fun c => !(isSpaceChar c)) s p)

/-- The re.findall scan: collect the matched group of each non-overlapping
match from left to right.  Fuel is the string length (every step advances at
least one position). -/
def scanTokens (s : List Char) : Nat → Nat → List (List Char)
  | 0, _ => []
  | fuel + 1, p =>
    if p < s.length then
      match altGroup s p with
      | some (tok, len) => tok :: scanTokens s fuel (p + len)
      | none =>
        match altPunct s p with
        | some k => ((s.drop p).take k) :: scanTokens s fuel (p + k)
        | none =>
          match altWord s p with
          | some k => ((s.drop p).take k) :: scanTokens s fuel (p + k)
          | none => scanTokens s fuel (p + 1)
    else []

/-- Tokens of the source string under from_string's regex (default group
markers). -/
def tokenize (source : String) : List String :=
  (scanTokens source.toList source.toList.length 0).map (fun cs => String.mk cs)

/-- Embedding of graph.Graph.from_string with the default group markers.
distanceWeights is the items list of the distance_weights dict (sorted by
key inside, as in the source); one node per word (or per unique word when
mergeSameWords), and for each word position i and each (key, weight) a link
of that weight from word i's node to the node of the word at index
(key + i) mod len(words). -/
def from_string (source : String) (distanceWeights : List (Int × ℚ))
    (mergeSameWords : Bool) : GraphSt String :=
  let sortedWeights := sortByKey (fun a => a.1) distanceWeights
  let words := tokenize source
  let n := words.length
  if mergeSameWords then
    let uniq := words.foldl
      (fun acc wd => if acc.any (fun nd => nd.value = wd) then acc else acc ++ [⟨wd, []⟩])
      ([] : World String)
    let world := (List.range n).foldl
      (fun (acc : World String) (i : Nat) =>
        let word := words.getD i ""
        let mi := acc.findIdx (fun nd => nd.value = word)
        sortedWeights.foldl
          (fun acc2 kw =>
            let wrapped := ((kw.1 + (i : Int)) % (n : Int)).toNat
            let ti := acc2.findIdx (fun nd => nd.value = words.getD wrapped "")
            addLinkW acc2 mi ti kw.2)
          acc)
      uniq
    ⟨world, List.range uniq.length⟩
  else
    let world0 : World String := words.map (fun wd => ⟨wd, []⟩)
    let world := (List.range n).foldl
      (fun (acc : World String) (i : Nat) =>
        sortedWeights.foldl
          (fun acc2 kw =>
            let wrapped := ((kw.1 + (i : Int)) % (n : Int)).toNat
            addLinkW acc2 i wrapped kw.2)
          acc)
      world0
    ⟨world, List.range n⟩

/-- Sortedness of a weight list: non-decreasing outcomes. -/
def SortedW (weights : List (ℚ × ℚ)) : Prop :=
  List.Chain' (fun a b => a.1 ≤ b.1) weights

/-!
### Lemmas about the weighted_choice cumulative walk
-/

theorem wcWalk_success {α : Type} :
    ∀ (l : List (α × ℚ)) (u pos : ℚ) (i0 : Nat), pos ≤ u →
      u ≤ pos + ((l.map (fun w => w.2)).sum) → l ≠ [] →
      ∃ j, ∃ h : j < l.length,
        wcWalk l u pos i0 = .ok (i0 + j, (l.get ⟨j, h⟩).1) ∧
        pos + cumAt l j ≤ u ∧ u ≤ pos + cumAt l j + (l.get ⟨j, h⟩).2 := by
  intro l
  induction l with
  | nil => intro u pos i0 _ _ hne; exact absurd rfl hne
  | cons hd tl ih =>
    intro u pos i0 hle hub _
    obtain ⟨a, w⟩ := hd
    by_cases hc : pos ≤ u ∧ u ≤ pos + w
    · refine ⟨0, Nat.succ_pos _, ?_, ?_, ?_⟩
      · simp [wcWalk, hc]
      · simpa [cumAt] using hc.1
      · simpa [cumAt] using hc.2
    · have hgt : pos + w < u := by
        rcases not_and_or.mp hc with h1 | h2
        · exact absurd hle h1
        · exact lt_of_not_le h2
      rcases tl with _ | ⟨b, tl2⟩
      · exfalso
        simp only [List.map_cons, List.map_nil, List.sum_cons, List.sum_nil,
          add_zero] at hub
        linarith
      · have hub2 : u ≤ (pos + w) + (((b :: tl2).map (fun w => w.2)).sum) := by
          simp only [List.map_cons, List.sum_cons] at hub ⊢
          linarith
        obtain ⟨j, hj, heq, hlo, hhi⟩ :=
          ih u (pos + w) (i0 + 1) (le_of_lt hgt) hub2 (by simp)
        have hstep : wcWalk ((a, w) :: b :: tl2) u pos i0 =
            wcWalk (b :: tl2) u (pos + w) (i0 + 1) := by
          simp [wcWalk, hc]
        have hidx : i0 + 1 + j = i0 + (j + 1) := by omega
        refine ⟨j + 1, Nat.succ_lt_succ hj, ?_, ?_, ?_⟩
        · rw [hstep, heq, hidx]
          exact rfl
        · have : cumAt ((a, w) :: b :: tl2) (j + 1) = w + cumAt (b :: tl2) j := by
            simp [cumAt, List.take_succ_cons]
          rw [this]; linarith
        · have : cumAt ((a, w) :: b :: tl2) (j + 1) = w + cumAt (b :: tl2) j := by
            simp [cumAt, List.take_succ_cons]
          rw [this]
          have hget : (((a, w) :: b :: tl2).get ⟨j + 1, Nat.succ_lt_succ hj⟩) =
              ((b :: tl2).get ⟨j, hj⟩) := rfl
          rw [hget]; linarith

theorem weighted_choice_success {α : Type} (weights : List (α × ℚ)) (u : ℚ)
    (hS : 0 < ((weights.map (fun w => w.2)).sum)) (h0 : 0 ≤ u)
    (hu : u ≤ ((weights.map (fun w => w.2)).sum)) :
    ∃ j, ∃ h : j < weights.length,
      weighted_choice weights u = .ok (j, (weights.get ⟨j, h⟩).1) ∧
      cumAt weights j ≤ u ∧ u ≤ cumAt weights j + (weights.get ⟨j, h⟩).2 := by
  have hne : weights ≠ [] := by
    rintro rfl; simp at hS
  obtain ⟨j, h, heq, hlo, hhi⟩ :=
    wcWalk_success weights u 0 0 h0 (by simpa using hu) hne
  have hlen : ¬ weights.length = 0 := by
    simpa [List.length_eq_zero] using hne
  refine ⟨j, h, ?_, by simpa using hlo, by simpa using hhi⟩
  unfold weighted_choice
  simp only [hlen, if_false, not_le.mpr hS, if_neg (not_le.mpr hS)]
  simpa using heq

theorem wcWalk_ok_bounds {α : Type} :
    ∀ (l : List (α × ℚ)) (u pos : ℚ) (i0 j : Nat) (a : α),
      wcWalk l u pos i0 = .ok (j, a) →
      ∃ k, ∃ h : k < l.length, j = i0 + k ∧ a = (l.get ⟨k, h⟩).1 ∧
        pos + cumAt l k ≤ u ∧ u ≤ pos + cumAt l k + (l.get ⟨k, h⟩).2 := by
  intro l
  induction l with
  | nil => intro u pos i0 j a h; simp [wcWalk] at h
  | cons hd tl ih =>
    intro u pos i0 j a hok
    obtain ⟨b, w⟩ := hd
    by_cases hc : pos ≤ u ∧ u ≤ pos + w
    · have : j = i0 ∧ a = b := by
        simp [wcWalk, hc] at hok
        exact ⟨hok.1.symm, hok.2.symm⟩
      refine ⟨0, Nat.succ_pos _, by omega, ?_, ?_, ?_⟩
      · simpa using this.2
      · simpa [cumAt] using hc.1
      · simpa [cumAt] using hc.2
    · have hok2 : wcWalk tl u (pos + w) (i0 + 1) = .ok (j, a) := by
        simpa [wcWalk, hc] using hok
      obtain ⟨k, hk, hj, ha, hlo, hhi⟩ := ih u (pos + w) (i0 + 1) j a hok2
      have hcum : cumAt ((b, w) :: tl) (k + 1) = w + cumAt tl k := by
        simp [cumAt, List.take_succ_cons]
      refine ⟨k + 1, Nat.succ_lt_succ hk, by omega, ?_, ?_, ?_⟩
      · simpa using ha
      · rw [hcum]; linarith
      · rw [hcum]
        have hget : (((b, w) :: tl).get ⟨k + 1, Nat.succ_lt_succ hk⟩) =
            (tl.get ⟨k, hk⟩) := rfl
        rw [hget]; linarith

/-- C10: under exact rational arithmetic the trailing AssertionError branch
of weighted_choice is unreachable: for every weights list with positive
total strength (zero and negative strengths allowed) and every draw u with
0 <= u <= total, the cumulative walk returns an index whose interval
contains u. -/
theorem weighted_choice_assert_unreachable {α : Type} (weights : List (α × ℚ))
    (u : ℚ) (hS : 0 < ((weights.map (fun w => w.2)).sum)) (h0 : 0 ≤ u)
    (hu : u ≤ ((weights.map (fun w => w.2)).sum)) :
    ∃ j, ∃ h : j < weights.length,
      weighted_choice weights u = .ok (j, (weights.get ⟨j, h⟩).1) ∧
      cumAt weights j ≤ u ∧ u ≤ cumAt weights j + (weights.get ⟨j, h⟩).2 :=
  weighted_choice_success weights u hS h0 hu

/-- Witness for C10 at weights [(5, 2), (7, -1), (9, 4)] and u = 3 (a list
with a negative strength). -/
theorem weighted_choice_assert_unreachable_witness :
    ∃ j, ∃ h : j < ([((5:ℚ), (2:ℚ)), (7, -1), (9, 4)]).length,
      weighted_choice [((5:ℚ), (2:ℚ)), (7, -1), (9, 4)] 3 =
        .ok (j, (([((5:ℚ), (2:ℚ)), (7, -1), (9, 4)]).get ⟨j, h⟩).1) ∧
      cumAt [((5:ℚ), (2:ℚ)), (7, -1), (9, 4)] j ≤ 3 ∧
      3 ≤ cumAt [((5:ℚ), (2:ℚ)), (7, -1), (9, 4)] j +
        (([((5:ℚ), (2:ℚ)), (7, -1), (9, 4)]).get ⟨j, h⟩).2 :=
  weighted_choice_assert_unreachable _ 3 (by norm_num) (by norm_num) (by norm_num)


/-- C4 counterexample: with weights [(10, 0), (20, 1)] (total strength 1 > 0)
and the legal draw u = 0, weighted_choice returns index 0, whose strength is
0, so an option of non-positive strength is returned. -/
theorem weighted_choice_returns_zero_strength :
    weighted_choice [((10:ℚ), (0:ℚ)), ((20:ℚ), (1:ℚ))] 0 = Except.ok (0, 10) ∧
    (([((10:ℚ), (0:ℚ)), ((20:ℚ), (1:ℚ))]).getD 0 (0, 0)).2 = 0 ∧
    0 < (([((10:ℚ), (0:ℚ)), ((20:ℚ), (1:ℚ))]).map (fun w => w.2)).sum ∧
    (0:ℚ) ≤ 0 ∧
    (0:ℚ) ≤ (([((10:ℚ), (0:ℚ)), ((20:ℚ), (1:ℚ))]).map (fun w => w.2)).sum := by
  refine ⟨by norm_num [weighted_choice, wcWalk], by decide, by norm_num, le_refl 0,
    by norm_num⟩

/-- C4 (amended): weighted_choice never returns an option of strictly
negative strength; an option of zero strength can only be returned when the
draw coincides exactly with that option's cumulative start position. -/
theorem weighted_choice_nonneg_strength {α : Type} (weights : List (α × ℚ))
    (u : ℚ) (j : Nat) (a : α)
    (hok : weighted_choice weights u = .ok (j, a)) :
    ∃ h : j < weights.length, 0 ≤ (weights.get ⟨j, h⟩).2 ∧
      ((weights.get ⟨j, h⟩).2 = 0 → u = cumAt weights j) := by
  unfold weighted_choice at hok
  by_cases hlen : weights.length = 0
  · simp [hlen] at hok
  · simp only [hlen, if_false] at hok
    by_cases hS : ((weights.map (fun w => w.2)).sum) ≤ 0
    · simp [hS] at hok
    · simp only [hS, if_false] at hok
      obtain ⟨k, hk, hjk, _, hlo, hhi⟩ := wcWalk_ok_bounds weights u 0 0 j a hok
      have hjeq : j = k := by omega
      subst hjeq
      refine ⟨hk, by linarith [hlo, hhi], fun hz => ?_⟩
      rw [hz] at hhi
      simp only [zero_add] at hlo hhi
      linarith

/-- Witness for C4's amended theorem at weights [(5, 2)] and u = 1. -/
theorem weighted_choice_nonneg_strength_witness :
    ∃ h : 0 < ([((5:ℚ), (2:ℚ))]).length,
      0 ≤ (([((5:ℚ), (2:ℚ))]).get ⟨0, h⟩).2 ∧
      ((([((5:ℚ), (2:ℚ))]).get ⟨0, h⟩).2 = 0 →
        (1:ℚ) = cumAt [((5:ℚ), (2:ℚ))] 0) :=
  weighted_choice_nonneg_strength [((5:ℚ), (2:ℚ))] 1 0 5
    (by norm_num [weighted_choice, wcWalk])

/-!
### Lemmas for weighted_order (C3)
-/

theorem perm_get_cons_eraseIdx {α : Type} (l : List α) (i : Nat)
    (h : i < l.length) : l.Perm (l.get ⟨i, h⟩ :: l.eraseIdx i) := by
  classical
  have hmem : l.get ⟨i, h⟩ ∈ l := List.get_mem l i h
  refine (List.perm_cons_erase hmem).trans (List.Perm.cons _ ?_)
  simpa [List.get_eq_getElem] using List.erase_getElem h

theorem map_fst_eraseIdx {α : Type} (l : List (α × ℚ)) (i : Nat) :
    (l.eraseIdx i).map (fun w => w.1) = (l.map (fun w => w.1)).eraseIdx i := by
  simp [List.eraseIdx_eq_take_drop_succ, List.map_take, List.map_drop]

theorem sum_strengths_pos {α : Type} (l : List (α × ℚ)) (hne : l ≠ [])
    (hpos : ∀ w ∈ l, 0 < w.2) : 0 < ((l.map (fun w => w.2)).sum) := by
  rcases l with _ | ⟨hd, tl⟩
  · exact absurd rfl hne
  · simp only [List.map_cons, List.sum_cons]
    have h1 : 0 < hd.2 := hpos hd (by simp)
    have h2 : 0 ≤ ((tl.map (fun w => w.2)).sum) := by
      refine List.sum_nonneg ?_
      intro x hx
      obtain ⟨w, hw, rfl⟩ := List.mem_map.mp hx
      exact le_of_lt (hpos w (by simp [hw]))
    linarith

theorem woLoop_perm {α : Type} :
    ∀ (N : Nat) (working : List (α × ℚ)) (r : Nat → ℚ) (k : Nat) (out : List α),
      working.length = N →
      (∀ w ∈ working, 0 < w.2) → (∀ n, 0 ≤ r n ∧ r n ≤ 1) →
      ∃ res, woLoop working r k out = .ok res ∧
        res.Perm (out ++ working.map (fun w => w.1)) := by
  intro N
  induction N using Nat.strong_induction_on with
  | _ N ih =>
    intro working r k out hlen hpos hr
    rcases hwk : working with _ | ⟨w0, ws⟩
    · subst hwk
      exact ⟨out, by rw [woLoop], by simp⟩
    · subst hwk
      have hS : 0 < (((w0 :: ws).map (fun w => w.2)).sum) :=
        sum_strengths_pos _ (by simp) hpos
      set u := r k * (((w0 :: ws).map (fun w => w.2)).sum) with hu
      have h0u : 0 ≤ u := mul_nonneg (hr k).1 (le_of_lt hS)
      have huS : u ≤ (((w0 :: ws).map (fun w => w.2)).sum) :=
        mul_le_of_le_one_left (le_of_lt hS) (hr k).2
      obtain ⟨j, hj, heq, _, _⟩ := weighted_choice_success (w0 :: ws) u hS h0u huS
      have hrec := ih ((w0 :: ws).eraseIdx j).length
        (by rw [List.length_eraseIdx_of_lt hj]; omega)
        ((w0 :: ws).eraseIdx j) r (k + 1)
        (out ++ [((w0 :: ws).get ⟨j, hj⟩).1]) rfl
        (fun w hw => hpos w (List.mem_of_mem_eraseIdx hw)) hr
      obtain ⟨res, hres, hperm⟩ := hrec
      refine ⟨res, ?_, ?_⟩
      · rw [woLoop]
        simp only [← hu, heq, hj, dif_pos]
        exact hres
      · refine hperm.trans ?_
        rw [List.append_assoc]
        refine (List.Perm.append_left out ?_)
        have h2 : [((w0 :: ws).get ⟨j, hj⟩).1] ++
              ((w0 :: ws).eraseIdx j).map (fun w => w.1)
            = ((w0 :: ws).map (fun w => w.1)).get ⟨j, by simpa using hj⟩ ::
              ((w0 :: ws).map (fun w => w.1)).eraseIdx j := by
          rw [map_fst_eraseIdx]
          simp only [List.get_eq_getElem, List.getElem_map, List.singleton_append]
        rw [h2]
        exact (perm_get_cons_eraseIdx _ j (by simpa using hj)).symm

/-- C3: for every weight list with all strengths strictly positive and every
stream of unit draws, weighted_order succeeds and returns a permutation of
the input outcomes (equal multiset, equal length); the empty list returns
the empty list. -/
theorem weighted_order_is_permutation {α : Type} (weights : List (α × ℚ))
    (r : Nat → ℚ) (hpos : ∀ w ∈ weights, 0 < w.2)
    (hr : ∀ n, 0 ≤ r n ∧ r n ≤ 1) :
    (∃ res, weighted_order weights r = .ok res ∧
      res.Perm (weights.map (fun w => w.1)) ∧ res.length = weights.length) ∧
    weighted_order ([] : List (α × ℚ)) r = .ok [] := by
  constructor
  · by_cases hlen : weights.length = 0
    · rw [List.length_eq_zero] at hlen
      subst hlen
      exact ⟨[], by simp [weighted_order], by simp, by simp⟩
    · have hany : weights.any (fun w => decide (w.2 ≤ 0)) = false := by
        simp only [List.any_eq_false, decide_eq_true_eq]
        intro w hw
        exact not_le.mpr (hpos w hw)
      obtain ⟨res, heq, hperm⟩ :=
        woLoop_perm weights.length weights r 0 [] rfl hpos hr
      refine ⟨res, ?_, by simpa using hperm, ?_⟩
      · unfold weighted_order
        simp only [hlen, if_false, hany, Bool.false_eq_true]
        exact heq
      · rw [hperm.length_eq]
        simp
  · simp [weighted_order]

/-- Witness for C3 at weights [(1, 1), (2, 3)] (outcomes in Nat) and the
constant draw stream 1/2. -/
theorem weighted_order_is_permutation_witness :
    (∃ res, weighted_order [((1:Nat), (1:ℚ)), (2, 3)] (fun _ => 1 / 2) = .ok res ∧
      res.Perm (([((1:Nat), (1:ℚ)), (2, 3)]).map (fun w => w.1)) ∧
      res.length = ([((1:Nat), (1:ℚ)), (2, 3)]).length) ∧
    weighted_order ([] : List (Nat × ℚ)) (fun _ => 1 / 2) = .ok [] :=
  weighted_order_is_permutation [((1:Nat), (1:ℚ)), (2, 3)] (fun _ => 1 / 2)
    (by decide) (fun n => ⟨by norm_num, by norm_num⟩)

/-!
### Lemmas for weighted_rand (C9)
-/

theorem length_insertSorted {β K : Type} [LinearOrder K] (key : β → K)
    (x : β) : ∀ (l : List β), (insertSorted key x l).length = l.length + 1
  | [] => rfl
  | y :: ys => by
    simp only [insertSorted]
    split
    · simp [length_insertSorted key x ys]
    · simp

theorem length_sortByKey_fold {β K : Type} [LinearOrder K] (key : β → K) :
    ∀ (l acc : List β),
      (l.foldl (fun acc x => insertSorted key x acc) acc).length =
        acc.length + l.length
  | [], acc => by simp
  | x :: xs, acc => by
    simp only [List.foldl_cons, length_sortByKey_fold key xs,
      length_insertSorted, List.length_cons]
    omega

theorem length_sortWeights (weights : List (ℚ × ℚ)) :
    (sortWeights weights).length = weights.length := by
  simpa [sortWeights, sortByKey] using
    length_sortByKey_fold (fun a : ℚ × ℚ => a.1) weights []

theorem wrLoop_exhaust (curve : List (ℚ × ℚ)) (xs ys : Nat → ℚ) (c : Nat) :
    ∀ (fuel k0 : Nat),
      (∀ k, k0 ≤ k → k < k0 + fuel →
        pointUnderCurve curve (wrSample curve xs ys k) = false) →
      wrLoop curve xs ys c fuel k0 = ((curve.getD c (0, 0)).1)
  | 0, k0, _ => rfl
  | fuel + 1, k0, hall => by
    have h0 : pointUnderCurve curve (wrSample curve xs ys k0) = false :=
      hall k0 le_rfl (by omega)
    simp only [wrLoop, h0, Bool.false_eq_true, if_false]
    exact wrLoop_exhaust curve xs ys c fuel (k0 + 1)
      (fun k hk1 hk2 => hall k (by omega) (by omega))

/-- C9: for every non-empty weight list and every pair of draw streams,
weighted_rand returns a value (no exception): a single-element list returns
its outcome directly with no sampling; with more elements the rejection loop
runs at most 500000 attempts, and when every one of those samples fails the
under-curve test the result is the outcome of the weight point of the sorted
list at the fallback choice index. -/
theorem weighted_rand_terminates (weights : List (ℚ × ℚ)) (xs ys : Nat → ℚ)
    (c : Nat) (hne : weights ≠ []) :
    ∃ v, weighted_rand weights xs ys c = .ok v ∧
      (weights.length = 1 → v = ((weights.headI).1)) ∧
      (weights.length ≠ 1 →
        (∀ k, k < 500000 →
          pointUnderCurve (sortWeights weights)
            (wrSample (sortWeights weights) xs ys k) = false) →
        v = (((sortWeights weights).getD c (0, 0)).1)) := by
  by_cases h1 : weights.length = 1
  · refine ⟨(weights.headI).1, ?_, fun _ => rfl, fun h => absurd h1 h⟩
    unfold weighted_rand
    simp [h1]
  · have hlen : sortWeights weights ≠ [] := by
      intro hnil
      have h0 := length_sortWeights weights
      rw [hnil] at h0
      exact hne (List.length_eq_zero.mp h0.symm)
    rcases hsw : sortWeights weights with _ | ⟨w0, rest⟩
    · exact absurd hsw hlen
    · refine ⟨wrLoop (w0 :: rest) xs ys c 500000 0, ?_,
        fun h => absurd h h1, fun _ hall => ?_⟩
      · unfold weighted_rand
        simp only [h1, if_false]
        rw [hsw]
        simp [listMax]
      · exact wrLoop_exhaust (w0 :: rest) xs ys c 500000 0
          (fun k hk0 hk => hall k (by omega))

/-- Witness for C9 at weights [(1, 1), (2, 1)] with zero draw streams and
fallback index 0. -/
theorem weighted_rand_terminates_witness :
    ∃ v, weighted_rand [((1:ℚ), (1:ℚ)), (2, 1)] (fun _ => 0) (fun _ => 0) 0 =
        .ok v ∧
      (([((1:ℚ), (1:ℚ)), (2, 1)]).length = 1 →
        v = ((([((1:ℚ), (1:ℚ)), (2, 1)]).headI).1)) ∧
      (([((1:ℚ), (1:ℚ)), (2, 1)]).length ≠ 1 →
        (∀ k, k < 500000 →
          pointUnderCurve (sortWeights [((1:ℚ), (1:ℚ)), (2, 1)])
            (wrSample (sortWeights [((1:ℚ), (1:ℚ)), (2, 1)])
              (fun _ => 0) (fun _ => 0) k) = false) →
        v = (((sortWeights [((1:ℚ), (1:ℚ)), (2, 1)]).getD 0 (0, 0)).1)) :=
  weighted_rand_terminates [((1:ℚ), (1:ℚ)), (2, 1)] (fun _ => 0) (fun _ => 0) 0
    (by simp)

/-!
### Lemmas for bound_weights (C7, C8)
-/

theorem sortedW_tail {p : ℚ × ℚ} {rest : List (ℚ × ℚ)}
    (h : SortedW (p :: rest)) : SortedW rest :=
  (List.chain'_cons'.mp h).2

theorem sortedW_head_le {curve : List (ℚ × ℚ)} (h : SortedW curve) :
    ∀ w0, curve.head? = some w0 → ∀ b ∈ curve, w0.1 ≤ b.1 := by
  induction curve with
  | nil => intro w0 hw; simp at hw
  | cons p rest ih =>
    intro w0 hw b hb
    simp only [List.head?_cons, Option.some_inj] at hw
    subst hw
    rcases List.mem_cons.mp hb with rfl | hb2
    · exact le_refl _
    · rcases rest with _ | ⟨q, rest2⟩
      · simp at hb2
      · have h1 : p.1 ≤ q.1 := (List.chain'_cons.mp h).1
        have h2 := ih (sortedW_tail h) q rfl b hb2
        linarith

theorem sortedW_le_last {curve : List (ℚ × ℚ)} (h : SortedW curve) :
    ∀ wl, curve.getLast? = some wl → ∀ b ∈ curve, b.1 ≤ wl.1 := by
  induction curve with
  | nil => intro wl hw; simp at hw
  | cons p rest ih =>
    intro wl hw b hb
    rcases rest with _ | ⟨q, rest2⟩
    · simp only [List.getLast?_singleton, Option.some_inj] at hw
      subst hw
      simp only [List.mem_singleton] at hb
      subst hb
      exact le_refl _
    · have hw2 : (q :: rest2).getLast? = some wl := by
        simpa [List.getLast?_cons_cons] using hw
      have h1 : p.1 ≤ q.1 := (List.chain'_cons.mp h).1
      have ihq := ih (sortedW_tail h) wl hw2
      rcases List.mem_cons.mp hb with rfl | hb2
      · have h2 := ihq q (by simp)
        linarith
      · exact ihq b hb2

theorem linearInterp_isSome :
    ∀ (curve : List (ℚ × ℚ)) (t : ℚ) (w0 wl : ℚ × ℚ), SortedW curve →
      curve.head? = some w0 → curve.getLast? = some wl →
      w0.1 ≤ t → t ≤ wl.1 → w0.1 < wl.1 →
      ∃ y, linearInterp curve t = some y := by
  intro curve
  induction curve with
  | nil => intro t w0 wl _ hw; simp at hw
  | cons p rest ih =>
    intro t w0 wl hs hw hl hle hge hlt
    simp only [List.head?_cons, Option.some_inj] at hw
    subst hw
    rcases rest with _ | ⟨q, rest2⟩
    · simp only [List.getLast?_singleton, Option.some_inj] at hl
      subst hl
      exact absurd hlt (lt_irrefl _)
    · have hl2 : (q :: rest2).getLast? = some wl := by
        simpa [List.getLast?_cons_cons] using hl
      have hpq : p.1 ≤ q.1 := (List.chain'_cons.mp hs).1
      by_cases heq : p.1 = q.1
      · have hq : q.1 ≤ t := heq ▸ hle
        have hqlt : q.1 < wl.1 := heq ▸ hlt
        obtain ⟨y, hy⟩ := ih t q wl (sortedW_tail hs) rfl hl2 hq hge hqlt
        exact ⟨y, by simp only [linearInterp, heq, if_pos rfl]; exact hy⟩
      · by_cases ht : t ≤ q.1
        · refine ⟨((q.2 - p.2) / (q.1 - p.1)) * t +
            (p.2 - ((q.2 - p.2) / (q.1 - p.1)) * p.1), ?_⟩
          simp only [linearInterp, if_neg heq, if_pos (And.intro hle ht)]
        · have hq : q.1 ≤ t := le_of_not_le ht
          have hqlt : q.1 < wl.1 := lt_of_lt_of_le (lt_of_not_le ht) hge
          obtain ⟨y, hy⟩ := ih t q wl (sortedW_tail hs) rfl hl2 hq hge hqlt
          refine ⟨y, ?_⟩
          have hcond : ¬(p.1 ≤ t ∧ t ≤ q.1) := fun hc => ht hc.2
          simp only [linearInterp, if_neg heq, if_neg hcond]
          exact hy

theorem filter_getLast_of_pos {l : List (ℚ × ℚ)} {p : ℚ × ℚ → Bool}
    (h : l ≠ []) (hp : p (l.getLast h) = true) :
    (l.filter p).getLast? = some (l.getLast h) := by
  conv_lhs => rw [← List.dropLast_append_getLast h]
  rw [List.filter_append]
  simp [hp]

theorem attachFront_ok (weights bounded : List (ℚ × ℚ)) (mn : Option ℚ)
    (hb : bounded ≠ []) (hw : weights ≠ [])
    (h : ((weights.headI).1 < (bounded.headI).1 ∧
        neOptBound (bounded.headI).1 mn = true) →
      ∃ m y, mn = some m ∧ linearInterp weights m = some y) :
    ∃ b2, attachFront weights bounded mn = .ok b2 ∧
      b2.getLast? = bounded.getLast? ∧ b2 ≠ [] := by
  rcases bounded with _ | ⟨b0, bs⟩
  · exact absurd rfl hb
  · rcases weights with _ | ⟨w0, wrest⟩
    · exact absurd rfl hw
    · simp only [List.headI] at h
      by_cases hc : w0.1 < b0.1 ∧ neOptBound b0.1 mn = true
      · obtain ⟨m, y, hm, hy⟩ := h hc
        subst hm
        refine ⟨(m, y) :: b0 :: bs, ?_, ?_, by simp⟩
        · simp only [attachFront, List.head?_cons, if_pos hc, hy]
        · simp [List.getLast?_cons_cons]
      · refine ⟨b0 :: bs, ?_, rfl, by simp⟩
        simp only [attachFront, List.head?_cons, if_neg hc]

theorem attachBack_ok (weights b2 : List (ℚ × ℚ)) (mx : Option ℚ)
    (hb : b2 ≠ []) (hw : weights ≠ [])
    (h : ((b2.getLast hb).1 < (weights.getLast hw).1 ∧
        neOptBound (b2.getLast hb).1 mx = true) →
      ∃ M y, mx = some M ∧ linearInterp weights M = some y) :
    ∃ res, attachBack weights b2 mx = .ok res := by
  have hgl : b2.getLast? = some (b2.getLast hb) := List.getLast?_eq_getLast b2 hb
  have hgw : weights.getLast? = some (weights.getLast hw) :=
    List.getLast?_eq_getLast weights hw
  by_cases hc : (b2.getLast hb).1 < (weights.getLast hw).1 ∧
      neOptBound (b2.getLast hb).1 mx = true
  · obtain ⟨M, y, hM, hy⟩ := h hc
    subst hM
    refine ⟨b2 ++ [(M, y)], ?_⟩
    simp only [attachBack, hgl, hgw, if_pos hc, hy]
  · refine ⟨b2, ?_⟩
    simp only [attachBack, hgl, hgw, if_neg hc]

theorem attachFront_forced (weights bounded : List (ℚ × ℚ)) (mn : Option ℚ)
    (b2 : List (ℚ × ℚ)) (m : ℚ) (b0 : ℚ × ℚ) (bs : List (ℚ × ℚ))
    (hok : attachFront weights bounded mn = .ok b2)
    (hb : bounded = b0 :: bs) (hmn : mn = some m)
    (hlt : (weights.headI).1 < b0.1) (hne : b0.1 ≠ m) :
    ∃ y, linearInterp weights m = some y ∧ b2 = (m, y) :: bounded := by
  subst hb hmn
  rcases weights with _ | ⟨w0, wrest⟩
  · simp [attachFront] at hok
  · simp only [List.headI] at hlt
    have hc : w0.1 < b0.1 ∧ neOptBound b0.1 (some m) = true := by
      refine ⟨hlt, ?_⟩
      simp [neOptBound, hne]
    rcases hy : linearInterp (w0 :: wrest) m with _ | y
    · simp only [attachFront, List.head?_cons, if_pos hc, hy] at hok
      exact Except.noConfusion hok
    · simp only [attachFront, List.head?_cons, if_pos hc, hy,
        Except.ok.injEq] at hok
      exact ⟨y, rfl, hok.symm⟩

theorem attachFront_getLast (weights bounded : List (ℚ × ℚ)) (mn : Option ℚ)
    (b2 : List (ℚ × ℚ)) (hok : attachFront weights bounded mn = .ok b2) :
    b2.getLast? = bounded.getLast? ∧ b2 ≠ [] ∧ weights ≠ [] := by
  rcases bounded with _ | ⟨b0, bs⟩
  · simp [attachFront] at hok
  · rcases weights with _ | ⟨w0, wrest⟩
    · simp [attachFront] at hok
    · by_cases hc : w0.1 < b0.1 ∧ neOptBound b0.1 mn = true
      · rcases mn with _ | m
        · simp only [attachFront, List.head?_cons, if_pos hc] at hok
          exact Except.noConfusion hok
        · rcases hy : linearInterp (w0 :: wrest) m with _ | y
          · simp only [attachFront, List.head?_cons, if_pos hc, hy] at hok
            exact Except.noConfusion hok
          · simp only [attachFront, List.head?_cons, if_pos hc, hy,
              Except.ok.injEq] at hok
            subst hok
            exact ⟨by simp [List.getLast?_cons_cons], by simp, by simp⟩
      · simp only [attachFront, List.head?_cons, if_neg hc,
          Except.ok.injEq] at hok
        subst hok
        exact ⟨rfl, by simp, by simp⟩

theorem attachBack_head (weights b2 : List (ℚ × ℚ)) (mx : Option ℚ)
    (res : List (ℚ × ℚ)) (hok : attachBack weights b2 mx = .ok res) :
    res.head? = b2.head? := by
  rcases hgl : b2.getLast? with _ | bl
  · simp only [attachBack, hgl] at hok
    exact Except.noConfusion hok
  · rcases hgw : weights.getLast? with _ | wl
    · simp only [attachBack, hgl, hgw] at hok
      exact Except.noConfusion hok
    · by_cases hc : bl.1 < wl.1 ∧ neOptBound bl.1 mx = true
      · rcases mx with _ | M
        · simp only [attachBack, hgl, hgw, if_pos hc] at hok
          exact Except.noConfusion hok
        · rcases hy : linearInterp weights M with _ | y
          · simp only [attachBack, hgl, hgw, if_pos hc, hy] at hok
            exact Except.noConfusion hok
          · simp only [attachBack, hgl, hgw, if_pos hc, hy,
              Except.ok.injEq] at hok
            subst hok
            have hb2 : b2 ≠ [] := by
              intro h0
              rw [h0] at hgl
              simp at hgl
            rcases b2 with _ | ⟨x, xs⟩
            · exact absurd rfl hb2
            · simp
      · simp only [attachBack, hgl, hgw, if_neg hc, Except.ok.injEq] at hok
        subst hok
        rfl

theorem attachBack_forced (weights b2 : List (ℚ × ℚ)) (mx : Option ℚ)
    (res : List (ℚ × ℚ)) (M : ℚ) (bl : ℚ × ℚ)
    (hok : attachBack weights b2 mx = .ok res)
    (hgl : b2.getLast? = some bl) (hmx : mx = some M)
    (hlt : bl.1 < (((weights.getLast?).getD (0, 0)).1)) (hne : bl.1 ≠ M) :
    ∃ y, linearInterp weights M = some y ∧ res = b2 ++ [(M, y)] := by
  subst hmx
  rcases hgw : weights.getLast? with _ | wl
  · simp only [attachBack, hgl, hgw] at hok
    exact Except.noConfusion hok
  · rw [hgw] at hlt
    simp only [Option.getD_some] at hlt
    have hc : bl.1 < wl.1 ∧ neOptBound bl.1 (some M) = true := by
      refine ⟨hlt, ?_⟩
      simp [neOptBound, hne]
    rcases hy : linearInterp weights M with _ | y
    · simp only [attachBack, hgl, hgw, if_pos hc, hy] at hok
      exact Except.noConfusion hok
    · simp only [attachBack, hgl, hgw, if_pos hc, hy, Except.ok.injEq] at hok
      exact ⟨y, rfl, hok.symm⟩

theorem attachFront_ne_valueError (weights bounded : List (ℚ × ℚ))
    (mn : Option ℚ) : attachFront weights bounded mn ≠ .error .valueError := by
  intro h
  rcases bounded with _ | ⟨b0, bs⟩
  · simp only [attachFront, List.head?_nil] at h
    exact RandErr.noConfusion (Except.error.inj h)
  · rcases weights with _ | ⟨w0, wrest⟩
    · simp only [attachFront, List.head?_cons, List.head?_nil] at h
      exact RandErr.noConfusion (Except.error.inj h)
    · by_cases hc : w0.1 < b0.1 ∧ neOptBound b0.1 mn = true
      · rcases mn with _ | m
        · simp only [attachFront, List.head?_cons, if_pos hc] at h
          exact RandErr.noConfusion (Except.error.inj h)
        · rcases hy : linearInterp (w0 :: wrest) m with _ | y
          · simp only [attachFront, List.head?_cons, if_pos hc, hy] at h
            exact RandErr.noConfusion (Except.error.inj h)
          · simp only [attachFront, List.head?_cons, if_pos hc, hy] at h
            exact Except.noConfusion h
      · simp only [attachFront, List.head?_cons, if_neg hc] at h
        exact Except.noConfusion h

theorem attachBack_ne_valueError (weights b2 : List (ℚ × ℚ))
    (mx : Option ℚ) : attachBack weights b2 mx ≠ .error .valueError := by
  intro h
  rcases hgl : b2.getLast? with _ | bl
  · simp only [attachBack, hgl] at h
    exact RandErr.noConfusion (Except.error.inj h)
  · rcases hgw : weights.getLast? with _ | wl
    · simp only [attachBack, hgl, hgw] at h
      exact RandErr.noConfusion (Except.error.inj h)
    · by_cases hc : bl.1 < wl.1 ∧ neOptBound bl.1 mx = true
      · rcases mx with _ | M
        · simp only [attachBack, hgl, hgw, if_pos hc] at h
          exact RandErr.noConfusion (Except.error.inj h)
        · rcases hy : linearInterp weights M with _ | y
          · simp only [attachBack, hgl, hgw, if_pos hc, hy] at h
            exact RandErr.noConfusion (Except.error.inj h)
          · simp only [attachBack, hgl, hgw, if_pos hc, hy] at h
            exact Except.noConfusion h
      · simp only [attachBack, hgl, hgw, if_neg hc] at h
        exact Except.noConfusion h

theorem attachEnds_ne_valueError (weights bounded : List (ℚ × ℚ))
    (mn mx : Option ℚ) : attachEnds weights bounded mn mx ≠ .error .valueError := by
  intro h
  unfold attachEnds at h
  rcases hf : attachFront weights bounded mn with e | b2
  · rw [hf] at h
    simp only [Except.error.injEq] at h
    subst h
    exact attachFront_ne_valueError weights bounded mn hf
  · rw [hf] at h
    exact attachBack_ne_valueError weights b2 mx h

theorem bound_weights_ok_of_survivor (weights : List (ℚ × ℚ))
    (mn mx : Option ℚ) (hs : SortedW weights)
    (hbound : mn ≠ none ∨ mx ≠ none)
    (hmM : ∀ m M, mn = some m → mx = some M → m ≤ M)
    (hne : bwFiltered weights mn mx ≠ []) :
    ∃ res, bound_weights weights mn mx = .ok res := by
  have hwne : weights ≠ [] := by
    intro h0
    subst h0
    rcases mn with _ | m <;> rcases mx with _ | M <;> simp [bwFiltered] at hne
  rcases hwc : weights with _ | ⟨w0, wrest⟩
  · exact absurd hwc hwne
  subst hwc
  have hh : (w0 :: wrest).head? = some w0 := rfl
  have hwne2 : w0 :: wrest ≠ [] := by simp
  obtain ⟨wl, hgw⟩ : ∃ x, (w0 :: wrest).getLast? = some x :=
    ⟨_, List.getLast?_eq_getLast _ hwne2⟩
  have hglast : (w0 :: wrest).getLast hwne2 = wl := by
    have h0 := List.getLast?_eq_getLast (w0 :: wrest) hwne2
    rw [hgw] at h0
    exact Option.some_inj.mp h0.symm
  have hhead : ∀ b ∈ w0 :: wrest, w0.1 ≤ b.1 := sortedW_head_le hs w0 hh
  have hlast : ∀ b ∈ w0 :: wrest, b.1 ≤ wl.1 := sortedW_le_last hs wl hgw
  rcases mn with _ | m <;> rcases mx with _ | M
  · simp at hbound
  · -- only maximum supplied
    have hFfil : bwFiltered (w0 :: wrest) none (some M) =
        (w0 :: wrest).filter (fun bw => decide (bw.1 ≤ M)) := rfl
    rcases hFc : bwFiltered (w0 :: wrest) none (some M) with _ | ⟨f0, fs⟩
    · exact absurd hFc hne
    have hFne : bwFiltered (w0 :: wrest) none (some M) ≠ [] := by rw [hFc]; simp
    have hf0 : f0 ∈ w0 :: wrest ∧ f0.1 ≤ M := by
      have hm0 : f0 ∈ (w0 :: wrest).filter (fun bw => decide (bw.1 ≤ M)) := by
        rw [← hFfil, hFc]; simp
      simpa using List.mem_filter.mp hm0
    obtain ⟨blF, hglF⟩ : ∃ x,
        (bwFiltered (w0 :: wrest) none (some M)).getLast? = some x :=
      ⟨_, List.getLast?_eq_getLast _ hFne⟩
    have hblF : blF ∈ w0 :: wrest ∧ blF.1 ≤ M := by
      have hm0 : blF ∈ bwFiltered (w0 :: wrest) none (some M) :=
        List.mem_of_getLast?_eq_some hglF
      rw [hFfil] at hm0
      simpa using List.mem_filter.mp hm0
    have hw0M : w0.1 ≤ M := le_trans (hhead f0 hf0.1) hf0.2
    have frontH : ((w0 :: wrest).headI.1 <
          (bwFiltered (w0 :: wrest) none (some M)).headI.1 ∧
        neOptBound (bwFiltered (w0 :: wrest) none (some M)).headI.1 none = true) →
        ∃ m2 y, (none : Option ℚ) = some m2 ∧
          linearInterp (w0 :: wrest) m2 = some y := by
      rintro ⟨hlt, _⟩
      exfalso
      have hpw0 : (fun bw : ℚ × ℚ => decide (bw.1 ≤ M)) w0 = true := by
        simpa using hw0M
      have hFw : bwFiltered (w0 :: wrest) none (some M) =
          w0 :: (wrest.filter (fun bw => decide (bw.1 ≤ M))) := by
        rw [hFfil]
        exact List.filter_cons_of_pos hpw0
      rw [hFw] at hlt
      simp only [List.headI] at hlt
      exact lt_irrefl _ hlt
    obtain ⟨b2, hfr, hgl2, hb2ne⟩ :=
      attachFront_ok (w0 :: wrest) (bwFiltered (w0 :: wrest) none (some M))
        none hFne hwne2 frontH
    have hb2l : b2.getLast hb2ne = blF := by
      have h1 : b2.getLast? = some (b2.getLast hb2ne) :=
        List.getLast?_eq_getLast _ hb2ne
      rw [hgl2, hglF] at h1
      exact (Option.some_inj.mp h1).symm
    have backH : ((b2.getLast hb2ne).1 < ((w0 :: wrest).getLast hwne2).1 ∧
        neOptBound (b2.getLast hb2ne).1 (some M) = true) →
        ∃ M2 y, (some M : Option ℚ) = some M2 ∧
          linearInterp (w0 :: wrest) M2 = some y := by
      rw [hb2l, hglast]
      rintro ⟨hlt, _⟩
      have hMwl : M < wl.1 := by
        by_contra hcon
        push_neg at hcon
        have hpwl : (fun bw : ℚ × ℚ => decide (bw.1 ≤ M))
            ((w0 :: wrest).getLast hwne2) = true := by
          rw [hglast]
          simpa using hcon
        have h1 := filter_getLast_of_pos
          (p := fun bw : ℚ × ℚ => decide (bw.1 ≤ M)) hwne2 hpwl
        rw [← hFfil, hglF, hglast] at h1
        have hbw : blF = wl := Option.some_inj.mp h1
        rw [hbw] at hlt
        exact lt_irrefl _ hlt
      have hw0M2 : w0.1 ≤ M := hw0M
      obtain ⟨y, hy⟩ := linearInterp_isSome (w0 :: wrest) M w0 wl hs hh hgw
        hw0M2 (le_of_lt hMwl) (lt_of_le_of_lt hw0M2 hMwl)
      exact ⟨M, y, rfl, hy⟩
    obtain ⟨res, hbk⟩ :=
      attachBack_ok (w0 :: wrest) b2 (some M) hb2ne hwne2 backH
    refine ⟨res, ?_⟩
    have hbw : bound_weights (w0 :: wrest) none (some M) =
        attachEnds (w0 :: wrest) (bwFiltered (w0 :: wrest) none (some M))
          none (some M) := rfl
    rw [hbw]
    unfold attachEnds
    rw [hfr]
    exact hbk
  · -- only minimum supplied
    have hFfil : bwFiltered (w0 :: wrest) (some m) none =
        (w0 :: wrest).filter (fun bw => decide (m ≤ bw.1)) := rfl
    rcases hFc : bwFiltered (w0 :: wrest) (some m) none with _ | ⟨f0, fs⟩
    · exact absurd hFc hne
    have hFne : bwFiltered (w0 :: wrest) (some m) none ≠ [] := by rw [hFc]; simp
    have hf0 : f0 ∈ w0 :: wrest ∧ m ≤ f0.1 := by
      have hm0 : f0 ∈ (w0 :: wrest).filter (fun bw => decide (m ≤ bw.1)) := by
        rw [← hFfil, hFc]; simp
      simpa using List.mem_filter.mp hm0
    obtain ⟨blF, hglF⟩ : ∃ x,
        (bwFiltered (w0 :: wrest) (some m) none).getLast? = some x :=
      ⟨_, List.getLast?_eq_getLast _ hFne⟩
    have hmwl : m ≤ wl.1 := le_trans hf0.2 (hlast f0 hf0.1)
    have frontH : ((w0 :: wrest).headI.1 <
          (bwFiltered (w0 :: wrest) (some m) none).headI.1 ∧
        neOptBound (bwFiltered (w0 :: wrest) (some m) none).headI.1
          (some m) = true) →
        ∃ m2 y, (some m : Option ℚ) = some m2 ∧
          linearInterp (w0 :: wrest) m2 = some y := by
      rintro ⟨hlt, _⟩
      have hw0m : w0.1 < m := by
        by_contra hcon
        push_neg at hcon
        have hpw0 : (fun bw : ℚ × ℚ => decide (m ≤ bw.1)) w0 = true := by
          simpa using hcon
        have hFw : bwFiltered (w0 :: wrest) (some m) none =
            w0 :: (wrest.filter (fun bw => decide (m ≤ bw.1))) := by
          rw [hFfil]
          exact List.filter_cons_of_pos hpw0
        rw [hFw] at hlt
        simp only [List.headI] at hlt
        exact lt_irrefl _ hlt
      obtain ⟨y, hy⟩ := linearInterp_isSome (w0 :: wrest) m w0 wl hs hh hgw
        (le_of_lt hw0m) hmwl (lt_of_lt_of_le hw0m hmwl)
      exact ⟨m, y, rfl, hy⟩
    obtain ⟨b2, hfr, hgl2, hb2ne⟩ :=
      attachFront_ok (w0 :: wrest) (bwFiltered (w0 :: wrest) (some m) none)
        (some m) hFne hwne2 frontH
    have hb2l : b2.getLast hb2ne = blF := by
      have h1 : b2.getLast? = some (b2.getLast hb2ne) :=
        List.getLast?_eq_getLast _ hb2ne
      rw [hgl2, hglF] at h1
      exact (Option.some_inj.mp h1).symm
    have backH : ((b2.getLast hb2ne).1 < ((w0 :: wrest).getLast hwne2).1 ∧
        neOptBound (b2.getLast hb2ne).1 none = true) →
        ∃ M2 y, (none : Option ℚ) = some M2 ∧
          linearInterp (w0 :: wrest) M2 = some y := by
      rw [hb2l, hglast]
      rintro ⟨hlt, _⟩
      exfalso
      have hpwl : (fun bw : ℚ × ℚ => decide (m ≤ bw.1))
          ((w0 :: wrest).getLast hwne2) = true := by
        rw [hglast]
        simpa using hmwl
      have h1 := filter_getLast_of_pos
        (p := fun bw : ℚ × ℚ => decide (m ≤ bw.1)) hwne2 hpwl
      rw [← hFfil, hglF, hglast] at h1
      have hbw : blF = wl := Option.some_inj.mp h1
      rw [hbw] at hlt
      exact lt_irrefl _ hlt
    obtain ⟨res, hbk⟩ := attachBack_ok (w0 :: wrest) b2 none hb2ne hwne2 backH
    refine ⟨res, ?_⟩
    have hbw : bound_weights (w0 :: wrest) (some m) none =
        attachEnds (w0 :: wrest) (bwFiltered (w0 :: wrest) (some m) none)
          (some m) none := rfl
    rw [hbw]
    unfold attachEnds
    rw [hfr]
    exact hbk
  · -- both bounds supplied
    have hmle : m ≤ M := hmM m M rfl rfl
    have hFfil : bwFiltered (w0 :: wrest) (some m) (some M) =
        (w0 :: wrest).filter (fun bw => decide (m ≤ bw.1 ∧ bw.1 ≤ M)) := rfl
    rcases hFc : bwFiltered (w0 :: wrest) (some m) (some M) with _ | ⟨f0, fs⟩
    · exact absurd hFc hne
    have hFne : bwFiltered (w0 :: wrest) (some m) (some M) ≠ [] := by
      rw [hFc]; simp
    have hf0 : f0 ∈ w0 :: wrest ∧ m ≤ f0.1 ∧ f0.1 ≤ M := by
      have hm0 : f0 ∈ (w0 :: wrest).filter
          (fun bw => decide (m ≤ bw.1 ∧ bw.1 ≤ M)) := by
        rw [← hFfil, hFc]; simp
      have h2 := List.mem_filter.mp hm0
      refine ⟨h2.1, ?_⟩
      simpa using h2.2
    obtain ⟨blF, hglF⟩ : ∃ x,
        (bwFiltered (w0 :: wrest) (some m) (some M)).getLast? = some x :=
      ⟨_, List.getLast?_eq_getLast _ hFne⟩
    have hblF : blF ∈ w0 :: wrest ∧ m ≤ blF.1 ∧ blF.1 ≤ M := by
      have hm0 : blF ∈ bwFiltered (w0 :: wrest) (some m) (some M) :=
        List.mem_of_getLast?_eq_some hglF
      rw [hFfil] at hm0
      have h2 := List.mem_filter.mp hm0
      refine ⟨h2.1, ?_⟩
      simpa using h2.2
    have frontH : ((w0 :: wrest).headI.1 <
          (bwFiltered (w0 :: wrest) (some m) (some M)).headI.1 ∧
        neOptBound (bwFiltered (w0 :: wrest) (some m) (some M)).headI.1
          (some m) = true) →
        ∃ m2 y, (some m : Option ℚ) = some m2 ∧
          linearInterp (w0 :: wrest) m2 = some y := by
      rintro ⟨hlt, _⟩
      have hw0m : w0.1 < m := by
        by_contra hcon
        push_neg at hcon
        have hw0M : w0.1 ≤ M := le_trans (hhead f0 hf0.1) hf0.2.2
        have hpw0 : (fun bw : ℚ × ℚ =>
            decide (m ≤ bw.1 ∧ bw.1 ≤ M)) w0 = true := by
          simp only [decide_eq_true_eq]
          exact ⟨hcon, hw0M⟩
        have hFw : bwFiltered (w0 :: wrest) (some m) (some M) =
            w0 :: (wrest.filter (fun bw => decide (m ≤ bw.1 ∧ bw.1 ≤ M))) := by
          rw [hFfil]
          exact List.filter_cons_of_pos hpw0
        rw [hFw] at hlt
        simp only [List.headI] at hlt
        exact lt_irrefl _ hlt
      have hmwl : m ≤ wl.1 := le_trans hf0.2.1 (hlast f0 hf0.1)
      obtain ⟨y, hy⟩ := linearInterp_isSome (w0 :: wrest) m w0 wl hs hh hgw
        (le_of_lt hw0m) hmwl (lt_of_lt_of_le hw0m hmwl)
      exact ⟨m, y, rfl, hy⟩
    obtain ⟨b2, hfr, hgl2, hb2ne⟩ :=
      attachFront_ok (w0 :: wrest)
        (bwFiltered (w0 :: wrest) (some m) (some M)) (some m) hFne hwne2 frontH
    have hb2l : b2.getLast hb2ne = blF := by
      have h1 : b2.getLast? = some (b2.getLast hb2ne) :=
        List.getLast?_eq_getLast _ hb2ne
      rw [hgl2, hglF] at h1
      exact (Option.some_inj.mp h1).symm
    have backH : ((b2.getLast hb2ne).1 < ((w0 :: wrest).getLast hwne2).1 ∧
        neOptBound (b2.getLast hb2ne).1 (some M) = true) →
        ∃ M2 y, (some M : Option ℚ) = some M2 ∧
          linearInterp (w0 :: wrest) M2 = some y := by
      rw [hb2l, hglast]
      rintro ⟨hlt, _⟩
      have hMwl : M < wl.1 := by
        by_contra hcon
        push_neg at hcon
        have hmwl2 : m ≤ wl.1 := le_trans hblF.2.1 (hlast blF hblF.1)
        have hpwl : (fun bw : ℚ × ℚ => decide (m ≤ bw.1 ∧ bw.1 ≤ M))
            ((w0 :: wrest).getLast hwne2) = true := by
          rw [hglast]
          simp only [decide_eq_true_eq]
          exact ⟨hmwl2, hcon⟩
        have h1 := filter_getLast_of_pos
          (p := fun bw : ℚ × ℚ => decide (m ≤ bw.1 ∧ bw.1 ≤ M)) hwne2 hpwl
        rw [← hFfil, hglF, hglast] at h1
        have hbw : blF = wl := Option.some_inj.mp h1
        rw [hbw] at hlt
        exact lt_irrefl _ hlt
      have hw0M : w0.1 ≤ M := le_trans (hhead blF hblF.1) hblF.2.2
      obtain ⟨y, hy⟩ := linearInterp_isSome (w0 :: wrest) M w0 wl hs hh hgw
        hw0M (le_of_lt hMwl) (lt_of_le_of_lt hw0M hMwl)
      exact ⟨M, y, rfl, hy⟩
    obtain ⟨res, hbk⟩ :=
      attachBack_ok (w0 :: wrest) b2 (some M) hb2ne hwne2 backH
    refine ⟨res, ?_⟩
    have hbw2 : bound_weights (w0 :: wrest) (some m) (some M) =
        if M < m then .error .valueError
        else attachEnds (w0 :: wrest)
          (bwFiltered (w0 :: wrest) (some m) (some M)) (some m) (some M) := rfl
    rw [hbw2, if_neg (not_lt.mpr hmle)]
    unfold attachEnds
    rw [hfr]
    exact hbk

/-- C8 counterexample: with neither bound supplied, bound_weights returns
the list unchanged (Except.ok), not the invalid-bounds error the claim
asserts. -/
theorem bound_weights_no_bounds_noop :
    bound_weights [((0:ℚ), (0:ℚ))] none none = Except.ok [(0, 0)] := rfl

/-- C8 (amended): the invalid-bounds ValueError occurs exactly when both
bounds are supplied with maximum < minimum; supplying neither bound is a
no-op returning the list unchanged; and for every sorted weight list with at
least one bound supplied, minimum <= maximum when both are, and at least one
point surviving the filter, the call returns a bounded list without failing
(if the filter removes every point the call instead fails with an
IndexError). -/
theorem bound_weights_error_conditions :
    (∀ (weights : List (ℚ × ℚ)) (m M : ℚ), M < m →
      bound_weights weights (some m) (some M) = .error .valueError) ∧
    (∀ weights : List (ℚ × ℚ), bound_weights weights none none = .ok weights) ∧
    (∀ (weights : List (ℚ × ℚ)) (mn mx : Option ℚ),
      bound_weights weights mn mx = .error .valueError →
      ∃ m M, mn = some m ∧ mx = some M ∧ M < m) ∧
    (∀ (weights : List (ℚ × ℚ)) (mn mx : Option ℚ), SortedW weights →
      (mn ≠ none ∨ mx ≠ none) →
      (∀ m M, mn = some m → mx = some M → m ≤ M) →
      bwFiltered weights mn mx ≠ [] →
      ∃ res, bound_weights weights mn mx = .ok res) := by
  refine ⟨?_, fun weights => rfl, ?_, bound_weights_ok_of_survivor⟩
  · intro weights m M h
    show (if M < m then (.error .valueError : Except RandErr (List (ℚ × ℚ)))
      else attachEnds weights (bwFiltered weights (some m) (some M))
        (some m) (some M)) = .error .valueError
    rw [if_pos h]
  · intro weights mn mx h
    rcases mn with _ | m <;> rcases mx with _ | M
    · exact Except.noConfusion h
    · exact absurd h (attachEnds_ne_valueError _ _ _ _)
    · exact absurd h (attachEnds_ne_valueError _ _ _ _)
    · by_cases hMm : M < m
      · exact ⟨m, M, rfl, rfl, hMm⟩
      · have h2 : (if M < m
            then (.error .valueError : Except RandErr (List (ℚ × ℚ)))
            else attachEnds weights (bwFiltered weights (some m) (some M))
              (some m) (some M)) = .error .valueError := h
        rw [if_neg hMm] at h2
        exact absurd h2 (attachEnds_ne_valueError _ _ _ _)

/-- Witness for C8's amended theorem: a concrete sorted list with one bound
supplied and a surviving point returns ok. -/
theorem bound_weights_error_conditions_witness :
    ∃ res, bound_weights [((0:ℚ), (0:ℚ)), (2, 2)] (some 1) none = .ok res :=
  (bound_weights_error_conditions).2.2.2 [((0:ℚ), (0:ℚ)), (2, 2)]
    (some 1) none (by simp [SortedW])
    (Or.inl (by simp))
    (fun m M h1 h2 => absurd h2 (by simp))
    (by decide)

/-- C7: bound_weights re-inserts a synthetic endpoint at a supplied bound
whose y is the linear interpolation of the original curve at that bound,
whenever trimming dropped points at that end and the surviving end point
does not sit exactly at the bound; in particular the two quoted evaluations
hold. -/
theorem bound_weights_endpoint_interpolation :
    (bound_weights [((0:ℚ), (0:ℚ)), (2, 2), (4, 2), (6, 0)] (some 2) (some 4) =
      .ok [(2, 2), (4, 2)]) ∧
    (bound_weights [((0:ℚ), (0:ℚ)), (2, 2), (4, 2), (6, 0)] (some 1) (some 5) =
      .ok [(1, 1), (2, 2), (4, 2), (5, 1)]) ∧
    (∀ (weights : List (ℚ × ℚ)) (m : ℚ) (mx : Option ℚ) (res : List (ℚ × ℚ))
        (b0 : ℚ × ℚ) (bs : List (ℚ × ℚ)),
      bound_weights weights (some m) mx = .ok res →
      bwFiltered weights (some m) mx = b0 :: bs →
      (weights.headI).1 < b0.1 → b0.1 ≠ m →
      ∃ y, linearInterp weights m = some y ∧ res.head? = some (m, y)) ∧
    (∀ (weights : List (ℚ × ℚ)) (mn : Option ℚ) (M : ℚ) (res : List (ℚ × ℚ))
        (bl : ℚ × ℚ),
      bound_weights weights mn (some M) = .ok res →
      (bwFiltered weights mn (some M)).getLast? = some bl →
      bl.1 < (((weights.getLast?).getD (0, 0)).1) → bl.1 ≠ M →
      ∃ y, linearInterp weights M = some y ∧ res.getLast? = some (M, y)) := by
  refine ⟨?_, ?_, ?_, ?_⟩
  · norm_num [bound_weights, bwFiltered, attachEnds, attachFront, attachBack,
      neOptBound, linearInterp]
  · norm_num [bound_weights, bwFiltered, attachEnds, attachFront, attachBack,
      neOptBound, linearInterp]
  · intro weights m mx res b0 bs hok hFc hlt hne
    have hok2 : attachEnds weights (bwFiltered weights (some m) mx)
        (some m) mx = .ok res := by
      rcases mx with _ | M
      · exact hok
      · have h2 : (if M < m
            then (.error .valueError : Except RandErr (List (ℚ × ℚ)))
            else attachEnds weights (bwFiltered weights (some m) (some M))
              (some m) (some M)) = .ok res := hok
        by_cases hMm : M < m
        · rw [if_pos hMm] at h2
          exact Except.noConfusion h2
        · rw [if_neg hMm] at h2
          exact h2
    unfold attachEnds at hok2
    rcases hf : attachFront weights (bwFiltered weights (some m) mx)
        (some m) with e | b2
    · rw [hf] at hok2
      exact Except.noConfusion hok2
    · rw [hf] at hok2
      obtain ⟨y, hy, hb2⟩ := attachFront_forced weights
        (bwFiltered weights (some m) mx) (some m) b2 m b0 bs hf hFc rfl hlt hne
      refine ⟨y, hy, ?_⟩
      have hhd := attachBack_head weights b2 mx res hok2
      rw [hhd, hb2]
      rfl
  · intro weights mn M res bl hok hgl hlt hne
    have hok2 : attachEnds weights (bwFiltered weights mn (some M))
        mn (some M) = .ok res := by
      rcases mn with _ | m
      · exact hok
      · have h2 : (if M < m
            then (.error .valueError : Except RandErr (List (ℚ × ℚ)))
            else attachEnds weights (bwFiltered weights (some m) (some M))
              (some m) (some M)) = .ok res := hok
        by_cases hMm : M < m
        · rw [if_pos hMm] at h2
          exact Except.noConfusion h2
        · rw [if_neg hMm] at h2
          exact h2
    unfold attachEnds at hok2
    rcases hf : attachFront weights (bwFiltered weights mn (some M))
        mn with e | b2
    · rw [hf] at hok2
      exact Except.noConfusion hok2
    · rw [hf] at hok2
      obtain ⟨hb2gl, hb2ne, hwne⟩ := attachFront_getLast weights
        (bwFiltered weights mn (some M)) mn b2 hf
      obtain ⟨y, hy, hres⟩ := attachBack_forced weights b2 (some M) res M bl
        hok2 (by rw [hb2gl]; exact hgl) rfl hlt hne
      refine ⟨y, hy, ?_⟩
      rw [hres]
      exact List.getLast?_concat b2

/-- Witness for C7: the general front-insertion clause applied to the quoted
second example. -/
theorem bound_weights_endpoint_interpolation_witness :
    ∃ y, linearInterp [((0:ℚ), (0:ℚ)), (2, 2), (4, 2), (6, 0)] 1 = some y ∧
      ([((1:ℚ), (1:ℚ)), (2, 2), (4, 2), (5, 1)]).head? = some (1, y) :=
  (bound_weights_endpoint_interpolation).2.2.1
    [((0:ℚ), (0:ℚ)), (2, 2), (4, 2), (6, 0)] 1 (some 5)
    [(1, 1), (2, 2), (4, 2), (5, 1)] (2, 2) [(4, 2)]
    (bound_weights_endpoint_interpolation).2.1
    (by decide) (by norm_num) (by norm_num)

/-!
### Link-level lemmas for the markov graph claims (C1, C2, C5)
-/

theorem map_fst_bumpFirst (t : Nat) (wt : ℚ) :
    ∀ ls : LinkL, (bumpFirst ls t wt).map (fun l => l.1) = ls.map (fun l => l.1)
  | [] => rfl
  | l :: ls => by
    simp only [bumpFirst]
    split
    · simp
    · simp [map_fst_bumpFirst t wt ls]

theorem map_fst_bumpFirstBy (p : Nat → Bool) (wt : ℚ) :
    ∀ ls : LinkL, (bumpFirstBy p ls wt).map (fun l => l.1) = ls.map (fun l => l.1)
  | [] => rfl
  | l :: ls => by
    simp only [bumpFirstBy]
    split
    · simp
    · simp [map_fst_bumpFirstBy p wt ls]

theorem noDupTargets_addLink {ls : LinkL} (h : NoDupTargets ls) (t : Nat)
    (wt : ℚ) : NoDupTargets (addLink ls t wt) := by
  unfold addLink
  split
  · unfold NoDupTargets
    rw [map_fst_bumpFirst]
    exact h
  · unfold NoDupTargets
    rw [List.map_append]
    simp only [List.map_cons, List.map_nil]
    rw [List.nodup_append]
    refine ⟨h, List.nodup_singleton t, ?_⟩
    intro a ha hb
    simp only [List.mem_singleton] at hb
    subst hb
    obtain ⟨l, hl, hfst⟩ := List.mem_map.mp ha
    rename_i hany
    simp only [Bool.not_eq_true, List.any_eq_false] at hany
    have hfalse := hany l hl
    rw [hfst] at hfalse
    simp at hfalse

theorem addLink_existing {ls : LinkL} {t : Nat}
    (h : ls.any (fun l => decide (l.1 = t)) = true) (wt : ℚ) :
    (addLink ls t wt).map (fun l => l.1) = ls.map (fun l => l.1) ∧
    (addLink ls t wt).length = ls.length := by
  unfold addLink
  rw [if_pos h]
  refine ⟨map_fst_bumpFirst t wt ls, ?_⟩
  have h2 := map_fst_bumpFirst t wt ls
  have h3 := congrArg List.length h2
  simpa using h3

theorem wToL_bumpFirst_self {t : Nat} (wt : ℚ) :
    ∀ ls : LinkL, ls.any (fun l => decide (l.1 = t)) = true →
      wToL (bumpFirst ls t wt) t = wToL ls t + wt
  | [], h => by simp at h
  | l :: ls, h => by
    by_cases hl : l.1 = t
    · simp only [bumpFirst, if_pos hl]
      simp [wToL, List.filter_cons, hl]
      ring
    · have h2 : ls.any (fun l => decide (l.1 = t)) = true := by
        simp only [List.any_cons] at h
        rcases Bool.or_eq_true_iff.mp h with h3 | h3
        · exact absurd (by simpa using h3) hl
        · exact h3
      simp only [bumpFirst, if_neg hl]
      have hstep : ∀ X : LinkL, wToL (l :: X) t = wToL X t := by
        intro X
        simp [wToL, List.filter_cons, hl]
      rw [hstep, hstep, wToL_bumpFirst_self wt ls h2]

theorem wToL_bumpFirst_ne {t s : Nat} (hst : s ≠ t) (wt : ℚ) :
    ∀ ls : LinkL, wToL (bumpFirst ls t wt) s = wToL ls s
  | [] => rfl
  | l :: ls => by
    by_cases hl : l.1 = t
    · have hlnot : ¬ l.1 = s := by
        rw [hl]
        exact fun hc => hst hc.symm
      simp only [bumpFirst, if_pos hl]
      simp [wToL, List.filter_cons, hlnot]
    · simp only [bumpFirst, if_neg hl]
      have h3 := wToL_bumpFirst_ne hst wt ls
      simp only [wToL] at h3
      by_cases hls : l.1 = s
      · simp [wToL, List.filter_cons, hls, h3]
      · simp [wToL, List.filter_cons, hls, h3]

theorem wToL_append (ls1 ls2 : LinkL) (t : Nat) :
    wToL (ls1 ++ ls2) t = wToL ls1 t + wToL ls2 t := by
  simp [wToL, List.filter_append]

theorem wToL_singleton_self (t : Nat) (wt : ℚ) : wToL [(t, wt)] t = wt := by
  simp [wToL]

theorem wToL_addLink_self (ls : LinkL) (t : Nat) (wt : ℚ) :
    wToL (addLink ls t wt) t = wToL ls t + wt := by
  unfold addLink
  split
  · rename_i h
    exact wToL_bumpFirst_self wt ls h
  · rw [wToL_append, wToL_singleton_self]

theorem wToL_addLink_ne (ls : LinkL) {t s : Nat} (hst : s ≠ t) (wt : ℚ) :
    wToL (addLink ls t wt) s = wToL ls s := by
  unfold addLink
  split
  · exact wToL_bumpFirst_ne hst wt ls
  · rw [wToL_append]
    have h0 : wToL [(t, wt)] s = 0 := by
      simp [wToL, List.filter_cons, Ne.symm hst]
    rw [h0, add_zero]

theorem wToL_eq_zero_of_not_mem {ls : LinkL} {t : Nat}
    (h : t ∉ ls.map (fun l => l.1)) : wToL ls t = 0 := by
  have hfil : ls.filter (fun l => decide (l.1 = t)) = [] := by
    rw [List.filter_eq_nil]
    intro l hl hdec
    simp only [decide_eq_true_eq] at hdec
    exact h (List.mem_map.mpr ⟨l, hl, hdec⟩)
  simp [wToL, hfil]

theorem wToL_of_find?_none {ls : LinkL} {t : Nat}
    (h : ls.find? (fun l => decide (l.1 = t)) = none) : wToL ls t = 0 := by
  rw [List.find?_eq_none] at h
  refine wToL_eq_zero_of_not_mem ?_
  intro hmem
  obtain ⟨l, hl, hfst⟩ := List.mem_map.mp hmem
  exact absurd (by simpa using hfst) (by simpa using h l hl)

theorem wToL_of_find?_some :
    ∀ {ls : LinkL} {t : Nat} {l : Nat × ℚ}, NoDupTargets ls →
      ls.find? (fun l => decide (l.1 = t)) = some l → l.2 = wToL ls t := by
  intro ls
  induction ls with
  | nil => intro t l _ h; simp at h
  | cons x xs ih =>
    intro t l hnd hfind
    have hnd2 : x.1 ∉ xs.map (fun l => l.1) ∧ NoDupTargets xs := by
      have h0 : (x.1 :: xs.map (fun l => l.1)).Nodup := hnd
      exact List.nodup_cons.mp h0
    by_cases hx : x.1 = t
    · have hfx : List.find? (fun l => decide (l.1 = t)) (x :: xs) = some x :=
        List.find?_cons_of_pos _ (by simpa using hx)
      rw [hfx] at hfind
      have hl : l = x := (Option.some_inj.mp hfind).symm
      subst hl
      have hnotin : t ∉ xs.map (fun l => l.1) := by
        rw [← hx]
        exact hnd2.1
      have hxs : wToL xs t = 0 := wToL_eq_zero_of_not_mem hnotin
      simp only [wToL] at hxs
      simp [wToL, List.filter_cons, hx, hxs]
    · have hfx : List.find? (fun l => decide (l.1 = t)) (x :: xs) =
          List.find? (fun l => decide (l.1 = t)) xs :=
        List.find?_cons_of_neg _ (by simpa using hx)
      rw [hfx] at hfind
      have h2 := ih hnd2.2 hfind
      rw [h2]
      simp [wToL, List.filter_cons, hx]

theorem wToL_filter_ne (ls : LinkL) {s kill : Nat} (h : s ≠ kill) :
    wToL (ls.filter (fun l => decide (l.1 ≠ kill))) s = wToL ls s := by
  unfold wToL
  rw [List.filter_filter]
  have heq : List.filter (fun a => decide (a.1 = s) && decide (a.1 ≠ kill)) ls =
      List.filter (fun l => decide (l.1 = s)) ls := by
    apply List.filter_congr
    intro l hl
    by_cases hls : l.1 = s
    · simp [hls, h]
    · simp [hls]
  rw [heq]

theorem noDupTargets_filter {ls : LinkL} (h : NoDupTargets ls)
    (p : Nat × ℚ → Bool) : NoDupTargets (ls.filter p) := by
  unfold NoDupTargets at h ⊢
  exact List.Nodup.sublist (List.Sublist.map _ (List.filter_sublist ls)) h

/-!
### World-level lemmas
-/

theorem length_modifyLinks {V : Type} (w : World V) (i : Nat)
    (f : LinkL → LinkL) : (modifyLinks w i f).length = w.length := by
  unfold modifyLinks
  rcases h : w[i]? with _ | nd
  · rfl
  · simp

theorem getLinks_modifyLinks_ne {V : Type} (w : World V) {i j : Nat}
    (hij : j ≠ i) (f : LinkL → LinkL) :
    getLinks (modifyLinks w i f) j = getLinks w j := by
  unfold modifyLinks getLinks
  rcases h : w[i]? with _ | nd
  · rfl
  · rw [List.getElem?_set_ne (fun hc => hij hc.symm)]

theorem getLinks_modifyLinks_self {V : Type} (w : World V) {i : Nat}
    (hi : i < w.length) (f : LinkL → LinkL) :
    getLinks (modifyLinks w i f) i = f (getLinks w i) := by
  unfold modifyLinks getLinks
  rcases h : w[i]? with _ | nd
  · rw [List.getElem?_eq_none_iff] at h
    omega
  · simp only [List.getElem?_set_self hi, h]

theorem getLinks_modifyLinks_filter {V : Type} (w : World V) (i : Nat)
    (p : Nat × ℚ → Bool) :
    getLinks (modifyLinks w i (fun ls => ls.filter p)) i =
      (getLinks w i).filter p := by
  by_cases hi : i < w.length
  · exact getLinks_modifyLinks_self w hi _
  · have h1 : w[i]? = none := by
      rw [List.getElem?_eq_none_iff]
      omega
    unfold modifyLinks getLinks
    simp [h1]

theorem getLinks_empty_of_ge {V : Type} (w : World V) {i : Nat}
    (hi : w.length ≤ i) : getLinks w i = [] := by
  unfold getLinks
  rw [List.getElem?_eq_none_iff.mpr hi]

theorem worldInv_getLinks {V : Type} {w : World V} (h : WorldInv w) (a : Nat) :
    NoDupTargets (getLinks w a) := by
  unfold getLinks
  rcases ha : w[a]? with _ | nd
  · exact List.nodup_nil
  · exact h nd (List.getElem?_mem ha)

theorem worldInv_modifyLinks {V : Type} {w : World V} (h : WorldInv w)
    (i : Nat) {f : LinkL → LinkL}
    (hf : ∀ ls, NoDupTargets ls → NoDupTargets (f ls)) :
    WorldInv (modifyLinks w i f) := by
  unfold modifyLinks
  rcases hi : w[i]? with _ | nd
  · exact h
  · intro x hx
    rcases List.mem_or_eq_of_mem_set hx with hx2 | hx2
    · exact h x hx2
    · subst hx2
      exact hf nd.links (h nd (List.getElem?_mem hi))

theorem worldInv_addLinkW {V : Type} {w : World V} (h : WorldInv w)
    (src t : Nat) (wt : ℚ) : WorldInv (addLinkW w src t wt) :=
  worldInv_modifyLinks h src (fun ls hls => noDupTargets_addLink hls t wt)

theorem length_addLinkW {V : Type} (w : World V) (src t : Nat) (wt : ℚ) :
    (addLinkW w src t wt).length = w.length :=
  length_modifyLinks w src _

theorem getLinks_addLinkW_ne {V : Type} (w : World V) {src j : Nat}
    (hj : j ≠ src) (t : Nat) (wt : ℚ) :
    getLinks (addLinkW w src t wt) j = getLinks w j :=
  getLinks_modifyLinks_ne w hj _

theorem getLinks_addLinkW_self {V : Type} (w : World V) {src : Nat}
    (hsrc : src < w.length) (t : Nat) (wt : ℚ) :
    getLinks (addLinkW w src t wt) src = addLink (getLinks w src) t wt :=
  getLinks_modifyLinks_self w hsrc _

theorem foldl_preserves {σ α : Type} (P : σ → Prop) (step : σ → α → σ)
    (hstep : ∀ s x, P s → P (step s x)) :
    ∀ (l : List α) (s : σ), P s → P (l.foldl step s)
  | [], s, hs => hs
  | x :: xs, s, hs => foldl_preserves P step hstep xs (step s x) (hstep s x hs)

theorem getLinks_foldl_elem_ne {V σ : Type} (step : World V → σ → World V)
    (idx : σ → Nat)
    (hstep : ∀ w n j, j ≠ idx n → getLinks (step w n) j = getLinks w j) :
    ∀ (ns : List σ) (w : World V) (j : Nat), (∀ n ∈ ns, j ≠ idx n) →
      getLinks (ns.foldl step w) j = getLinks w j
  | [], w, j, _ => rfl
  | n :: ns, w, j, h => by
    rw [List.foldl_cons]
    rw [getLinks_foldl_elem_ne step idx hstep ns (step w n) j
      (fun m hm => h m (List.mem_cons_of_mem n hm))]
    exact hstep w n j (h n (List.mem_cons_self n ns))

theorem getLinks_removeFold {V : Type} (node : Nat) :
    ∀ (ns : List Nat) (w : World V) (j : Nat), j ∈ ns →
      getLinks (ns.foldl (fun w n =>
          modifyLinks w n (fun ls => ls.filter (fun l => decide (l.1 ≠ node)))) w) j =
        (getLinks w j).filter (fun l => decide (l.1 ≠ node))
  | [], _, _, hj => absurd hj (List.not_mem_nil _)
  | n :: ns, w, j, hj => by
    rw [List.foldl_cons]
    by_cases hjn : j ∈ ns
    · rw [getLinks_removeFold node ns _ j hjn]
      by_cases hje : j = n
      · subst hje
        rw [getLinks_modifyLinks_filter]
        rw [List.filter_filter]
        apply List.filter_congr
        intro l hl
        simp [Bool.and_self]
      · rw [getLinks_modifyLinks_ne w hje]
    · have hje : j = n := by
        rcases List.mem_cons.mp hj with h0 | h0
        · exact h0
        · exact absurd h0 hjn
      subst hje
      rw [getLinks_foldl_elem_ne
          (fun w n => modifyLinks w n
            (fun ls => ls.filter (fun l => decide (l.1 ≠ node))))
          (fun n => n)
          (fun w n j0 hj0 => getLinks_modifyLinks_ne w hj0 _)
          ns _ j (fun m hm => fun hc => hjn (hc ▸ hm))]
      rw [getLinks_modifyLinks_filter]

/-- C5 counterexample: remove_node on a node that is absent from the node
list is a no-op, so a remaining listed node can keep a link targeting the
removed node.  Here node 0 links to the dangling id 1; remove_node .. 1
leaves that link in place. -/
theorem remove_node_counterexample :
    (remove_node (⟨[⟨0, [(1, 1)]⟩], [0]⟩ : GraphSt Nat) 1).nodeList = [0] ∧
    getLinks (remove_node (⟨[⟨0, [(1, 1)]⟩], [0]⟩ : GraphSt Nat) 1).world 0 =
      [(1, 1)] := by
  constructor
  · rfl
  · rfl

/-- C5 (amended): when the node is present in the node list (and listed only
once), remove_node removes it from the node list and strips every link
targeting it from every remaining listed node; an absent node is a no-op,
which can leave dangling links in place. -/
theorem remove_node_spec {V : Type} (st : GraphSt V) (node : Nat)
    (hmem : node ∈ st.nodeList) (hcount : st.nodeList.count node ≤ 1) :
    node ∉ (remove_node st node).nodeList ∧
    ∀ j ∈ (remove_node st node).nodeList,
      ∀ l ∈ getLinks (remove_node st node).world j, l.1 ≠ node := by
  have hrn : remove_node st node =
      ⟨(st.nodeList.erase node).foldl (fun w n =>
          modifyLinks w n (fun ls => ls.filter (fun l => decide (l.1 ≠ node))))
        st.world,
       st.nodeList.erase node⟩ := by
    unfold remove_node
    rw [if_pos hmem]
  rw [hrn]
  constructor
  · intro hc
    have h1 : st.nodeList.count node = 0 + 1 := by
      have h2 := List.count_pos_iff.mpr hmem
      omega
    have h3 : (st.nodeList.erase node).count node = 0 := by
      rw [List.count_erase_self, h1]
    rw [List.count_eq_zero] at h3
    exact h3 hc
  · intro j hj l hl
    rw [getLinks_removeFold node (st.nodeList.erase node) st.world j hj] at hl
    have h2 := List.of_mem_filter hl
    simpa using h2

/-- Witness for C5's amended theorem at a concrete two-node graph. -/
theorem remove_node_spec_witness :
    1 ∉ (remove_node (⟨[⟨0, [(1, 1)]⟩, ⟨1, []⟩], [0, 1]⟩ : GraphSt Nat) 1).nodeList ∧
    ∀ j ∈ (remove_node (⟨[⟨0, [(1, 1)]⟩, ⟨1, []⟩], [0, 1]⟩ : GraphSt Nat) 1).nodeList,
      ∀ l ∈ getLinks
          (remove_node (⟨[⟨0, [(1, 1)]⟩, ⟨1, []⟩], [0, 1]⟩ : GraphSt Nat) 1).world j,
        l.1 ≠ 1 :=
  remove_node_spec (⟨[⟨0, [(1, 1)]⟩, ⟨1, []⟩], [0, 1]⟩ : GraphSt Nat) 1
    (by decide) (by decide)

/-!
### Invariant preservation for every link-adding operation (C2)
-/

theorem noDupTargets_bumpFirst {ls : LinkL} (h : NoDupTargets ls) (t : Nat)
    (wt : ℚ) : NoDupTargets (bumpFirst ls t wt) := by
  unfold NoDupTargets
  rw [map_fst_bumpFirst]
  exact h

theorem noDupTargets_bumpFirstBy {ls : LinkL} (h : NoDupTargets ls)
    (p : Nat → Bool) (wt : ℚ) : NoDupTargets (bumpFirstBy p ls wt) := by
  unfold NoDupTargets
  rw [map_fst_bumpFirstBy]
  exact h

theorem worldInv_addLinkList {V : Type} {w : World V} (h : WorldInv w)
    (src : Nat) (targets : List Nat) (wt : ℚ) :
    WorldInv (addLinkList w src targets wt) :=
  foldl_preserves WorldInv _
    (fun s x hs => worldInv_addLinkW hs src x wt) targets w h

theorem worldInv_mlfStep {V : Type} [DecidableEq V] {w : World V}
    (h : WorldInv w) (sv : Bool) (self : Nat) (l : Nat × ℚ) :
    WorldInv (mlfStep sv w self l) := by
  unfold mlfStep
  split
  · split
    · exact worldInv_modifyLinks h self
        (fun ls hls => noDupTargets_bumpFirstBy hls _ l.2)
    · exact worldInv_addLinkW h self l.1 l.2
  · split
    · exact worldInv_modifyLinks h self
        (fun ls hls => noDupTargets_bumpFirst hls l.1 l.2)
    · exact worldInv_addLinkW h self l.1 l.2

theorem worldInv_merge_links_from {V : Type} [DecidableEq V] {w : World V}
    (h : WorldInv w) (self other : Nat) (sv : Bool) :
    WorldInv (merge_links_from w self other sv) :=
  foldl_preserves WorldInv _
    (fun s x hs => worldInv_mlfStep hs sv self x) _ w h

theorem worldInv_add_reciprocal_link {V : Type} {w : World V}
    (h : WorldInv w) (self : Nat) (targets : List Nat) (wt : ℚ) :
    WorldInv (add_reciprocal_link w self targets wt) :=
  foldl_preserves WorldInv _
    (fun s x hs => worldInv_addLinkW (worldInv_addLinkW hs self x wt) x self wt)
    targets w h

theorem worldInv_remove_node {V : Type} {st : GraphSt V}
    (h : WorldInv st.world) (node : Nat) :
    WorldInv (remove_node st node).world := by
  unfold remove_node
  split
  · exact foldl_preserves WorldInv _
      (fun s x hs => worldInv_modifyLinks hs x
        (fun ls hls => noDupTargets_filter hls _)) _ _ h
  · exact h

theorem worldInv_merge_nodes {V : Type} {st : GraphSt V}
    (h : WorldInv st.world) (keep kill : Nat) :
    WorldInv (merge_nodes st keep kill).world := by
  unfold merge_nodes
  have h1 : WorldInv ((getLinks st.world kill).foldl
      (fun w l => if l.1 ∈ st.nodeList then addLinkW w keep l.1 l.2 else w)
      st.world) := by
    refine foldl_preserves WorldInv _ (fun s x hs => ?_) _ _ h
    split
    · exact worldInv_addLinkW hs keep x.1 x.2
    · exact hs
  have h2 : WorldInv (st.nodeList.foldl
      (fun w n =>
        match (getLinks w n).find? (fun l => l.1 = kill) with
        | some l => addLinkW w n keep l.2
        | none => w)
      ((getLinks st.world kill).foldl
        (fun w l => if l.1 ∈ st.nodeList then addLinkW w keep l.1 l.2 else w)
        st.world)) := by
    refine foldl_preserves WorldInv _ (fun s x hs => ?_) _ _ h1
    split
    · exact worldInv_addLinkW hs x keep _
    · exact hs
  exact worldInv_remove_node h2 kill

theorem worldInv_featherInner {V : Type} (factor : ℚ) (includeSelf : Bool)
    (n t : Nat) (fw tsum : ℚ) :
    ∀ (fuel : Nat) (w : World V) (j : Nat), WorldInv w →
      WorldInv (featherInner factor includeSelf n t fw tsum fuel w j)
  | 0, w, j, h => h
  | fuel + 1, w, j, h => by
    simp only [featherInner]
    by_cases hj : j < (getLinks w t).length
    · rw [if_pos hj]
      apply worldInv_featherInner
      by_cases hskip : ¬includeSelf ∧ ((getLinks w t).getD j (0, 0)).1 = n
      · rw [if_pos hskip]
        exact h
      · rw [if_neg hskip]
        exact worldInv_addLinkW h n _ _
    · rw [if_neg hj]
      exact h

theorem worldInv_featherNode {V : Type} {w : World V} (h : WorldInv w)
    (factor : ℚ) (includeSelf : Bool) (n : Nat) :
    WorldInv (featherNode factor includeSelf w n) := by
  unfold featherNode
  refine foldl_preserves WorldInv _ (fun s x hs => ?_) _ _ h
  exact worldInv_featherInner factor includeSelf n x.1 _ _ _ s 0 hs

theorem worldInv_feather_links {V : Type} {st : GraphSt V}
    (h : WorldInv st.world) (factor : ℚ) (includeSelf : Bool) :
    WorldInv (feather_links st factor includeSelf).world := by
  unfold feather_links
  exact foldl_preserves WorldInv _
    (fun s x hs => worldInv_featherNode hs factor includeSelf x) _ _ h

/-- C2: the one-link-per-target invariant (no two links of one node target
the same node) is preserved by every link-adding operation: add_link (single
or list form), merge_links_from (either matching mode), add_reciprocal_link,
merge_nodes and feather_links; and when add_link hits an already-targeted
node the weight is merged: the target list and the link count are unchanged,
so no new link is appended. -/
theorem link_target_uniqueness_invariant {V : Type} [DecidableEq V]
    (w : World V) (nl : List Nat) (src other tgt keep kill : Nat)
    (targets : List Nat) (wt factor : ℚ) (sv incSelf : Bool)
    (hinv : WorldInv w) (hso : src ≠ other) (hkk : keep ≠ kill) :
    WorldInv (addLinkW w src tgt wt) ∧
    ((getLinks w src).any (fun l => decide (l.1 = tgt)) = true →
      (addLink (getLinks w src) tgt wt).map (fun l => l.1) =
        (getLinks w src).map (fun l => l.1) ∧
      (addLink (getLinks w src) tgt wt).length = (getLinks w src).length) ∧
    WorldInv (addLinkList w src targets wt) ∧
    WorldInv (merge_links_from w src other sv) ∧
    WorldInv (add_reciprocal_link w src targets wt) ∧
    WorldInv ((merge_nodes ⟨w, nl⟩ keep kill).world) ∧
    WorldInv ((feather_links ⟨w, nl⟩ factor incSelf).world) :=
  ⟨worldInv_addLinkW hinv src tgt wt,
   fun hany => addLink_existing hany wt,
   worldInv_addLinkList hinv src targets wt,
   worldInv_merge_links_from hinv src other sv,
   worldInv_add_reciprocal_link hinv src targets wt,
   worldInv_merge_nodes hinv keep kill,
   worldInv_feather_links hinv factor incSelf⟩

/-- Witness for C2 at a concrete two-node world. -/
theorem link_target_uniqueness_invariant_witness :
    WorldInv (addLinkW ([⟨0, [(1, 2)]⟩, ⟨1, []⟩] : World Nat) 0 1 1) ∧
    ((getLinks ([⟨0, [(1, 2)]⟩, ⟨1, []⟩] : World Nat) 0).any
        (fun l => decide (l.1 = 1)) = true →
      (addLink (getLinks ([⟨0, [(1, 2)]⟩, ⟨1, []⟩] : World Nat) 0) 1 1).map
          (fun l => l.1) =
        (getLinks ([⟨0, [(1, 2)]⟩, ⟨1, []⟩] : World Nat) 0).map
          (fun l => l.1) ∧
      (addLink (getLinks ([⟨0, [(1, 2)]⟩, ⟨1, []⟩] : World Nat) 0) 1 1).length =
        (getLinks ([⟨0, [(1, 2)]⟩, ⟨1, []⟩] : World Nat) 0).length) ∧
    WorldInv (addLinkList ([⟨0, [(1, 2)]⟩, ⟨1, []⟩] : World Nat) 0 [1] 1) ∧
    WorldInv (merge_links_from ([⟨0, [(1, 2)]⟩, ⟨1, []⟩] : World Nat) 0 1 false) ∧
    WorldInv (add_reciprocal_link ([⟨0, [(1, 2)]⟩, ⟨1, []⟩] : World Nat) 0 [1] 1) ∧
    WorldInv ((merge_nodes (⟨[⟨0, [(1, 2)]⟩, ⟨1, []⟩], [0, 1]⟩ : GraphSt Nat) 0 1).world) ∧
    WorldInv ((feather_links (⟨[⟨0, [(1, 2)]⟩, ⟨1, []⟩], [0, 1]⟩ : GraphSt Nat) 1 false).world) :=
  link_target_uniqueness_invariant ([⟨0, [(1, 2)]⟩, ⟨1, []⟩] : World Nat)
    [0, 1] 0 1 1 0 1 [1] 1 1 false false (by decide) (by decide) (by decide)

/-!
### Weight bookkeeping for merge_nodes (C1)
-/

theorem length_foldl_preserved {V σ : Type} (step : World V → σ → World V)
    (hstep : ∀ w x, (step w x).length = w.length) :
    ∀ (l : List σ) (w : World V), (l.foldl step w).length = w.length
  | [], w => rfl
  | x :: xs, w => by
    rw [List.foldl_cons, length_foldl_preserved step hstep xs (step w x),
      hstep w x]

theorem getLinks_p1_keep {V : Type} (nl : List Nat) (keep : Nat) :
    ∀ (L : LinkL) (w : World V), keep < w.length →
      getLinks (L.foldl
          (fun w l => if l.1 ∈ nl then addLinkW w keep l.1 l.2 else w) w) keep =
        L.foldl (fun acc l => if l.1 ∈ nl then addLink acc l.1 l.2 else acc)
          (getLinks w keep)
  | [], w, _ => rfl
  | l :: L2, w, hk => by
    rw [List.foldl_cons, List.foldl_cons]
    by_cases hmem : l.1 ∈ nl
    · rw [if_pos hmem, if_pos hmem]
      rw [getLinks_p1_keep nl keep L2 (addLinkW w keep l.1 l.2)
        (by rw [length_addLinkW]; exact hk)]
      rw [getLinks_addLinkW_self w hk]
    · rw [if_neg hmem, if_neg hmem]
      exact getLinks_p1_keep nl keep L2 w hk

theorem wToL_p1_links (nl : List Nat) :
    ∀ (L : LinkL) (acc : LinkL) (X : Nat),
      wToL (L.foldl (fun acc l => if l.1 ∈ nl then addLink acc l.1 l.2 else acc)
          acc) X =
        wToL acc X + (if X ∈ nl then wToL L X else 0)
  | [], acc, X => by
    have h0 : wToL ([] : LinkL) X = 0 := rfl
    rw [List.foldl_nil]
    split <;> simp [h0]
  | l :: L2, acc, X => by
    rw [List.foldl_cons]
    by_cases hmem : l.1 ∈ nl
    · rw [if_pos hmem, wToL_p1_links nl L2 _ X]
      by_cases hlx : l.1 = X
      · subst hlx
        rw [wToL_addLink_self]
        have hcons : wToL (l :: L2) l.1 = l.2 + wToL L2 l.1 := by
          simp [wToL, List.filter_cons]
        rw [hcons, if_pos hmem, if_pos hmem]
        ring
      · rw [wToL_addLink_ne acc (fun hc => hlx hc.symm)]
        have hcons : wToL (l :: L2) X = wToL L2 X := by
          simp [wToL, List.filter_cons, hlx]
        rw [hcons]
    · rw [if_neg hmem, wToL_p1_links nl L2 acc X]
      by_cases hlx : l.1 = X
      · subst hlx
        rw [if_neg hmem, if_neg hmem]
      · congr 1
        by_cases hX : X ∈ nl
        · rw [if_pos hX, if_pos hX]
          simp [wToL, List.filter_cons, hlx]
        · rw [if_neg hX, if_neg hX]

theorem noDupTargets_p1_links (nl : List Nat) (L : LinkL) (acc : LinkL)
    (h : NoDupTargets acc) :
    NoDupTargets (L.foldl
      (fun acc l => if l.1 ∈ nl then addLink acc l.1 l.2 else acc) acc) := by
  refine foldl_preserves NoDupTargets _ (fun s x hs => ?_) L acc h
  split
  · exact noDupTargets_addLink hs x.1 x.2
  · exact hs

theorem getLinks_foldl_once {V : Type} (step : World V → Nat → World V)
    (g : LinkL → LinkL)
    (hne : ∀ w n j, j ≠ n → getLinks (step w n) j = getLinks w j)
    (hself : ∀ w n, n < w.length → getLinks (step w n) n = g (getLinks w n))
    (hlen : ∀ w n, (step w n).length = w.length) :
    ∀ (ns : List Nat) (w : World V) (j : Nat), ns.Nodup → j ∈ ns →
      j < w.length → getLinks (ns.foldl step w) j = g (getLinks w j)
  | [], _, j, _, hmem, _ => absurd hmem (List.not_mem_nil j)
  | n :: ns2, w, j, hnd, hmem, hj => by
    rw [List.foldl_cons]
    by_cases hjn : j = n
    · subst hjn
      have hnotin : j ∉ ns2 := (List.nodup_cons.mp hnd).1
      rw [getLinks_foldl_elem_ne step (fun x => x)
        (fun w2 n2 j2 hj2 => hne w2 n2 j2 hj2) ns2 (step w j) j
        (fun m hm => fun hc => hnotin (by rw [hc]; exact hm))]
      exact hself w j hj
    · have hmem2 : j ∈ ns2 := by
        rcases List.mem_cons.mp hmem with h0 | h0
        · exact absurd h0 hjn
        · exact h0
      rw [getLinks_foldl_once step g hne hself hlen ns2 (step w n) j
        (List.nodup_cons.mp hnd).2 hmem2 (by rw [hlen]; exact hj)]
      rw [hne w n j hjn]

/-- C1 (amended): merge_nodes conserves outgoing weight from keep to every
surviving target other than keep, and the mass that pointed at kill (from
keep, and kill's own self-link) is redirected into keep's self-link: for
every X still in the graph, keep's weight to X is the sum of the two
original weights to X, plus (when X = keep) the two original weights to
kill. -/
theorem merge_nodes_weight_conservation {V : Type} (st : GraphSt V)
    (keep kill : Nat) (hkk : keep ≠ kill) (hkeep : keep ∈ st.nodeList)
    (hkill : kill ∈ st.nodeList) (hnd : st.nodeList.Nodup)
    (hinv : WorldInv st.world) (hlen : keep < st.world.length) :
    ∀ X ∈ (merge_nodes st keep kill).nodeList,
      wTo (merge_nodes st keep kill).world keep X =
        if X = keep then
          wTo st.world keep keep + wTo st.world kill keep +
            wTo st.world keep kill + wTo st.world kill kill
        else wTo st.world keep X + wTo st.world kill X := by
  obtain ⟨w, nl⟩ := st
  dsimp only at hkeep hkill hnd hinv hlen ⊢
  intro X hX
  have hw2eq : merge_nodes ⟨w, nl⟩ keep kill =
      remove_node ⟨nl.foldl
        (fun wa n =>
          match (getLinks wa n).find? (fun l => l.1 = kill) with
          | some l => addLinkW wa n keep l.2
          | none => wa)
        ((getLinks w kill).foldl
          (fun wa l => if l.1 ∈ nl then addLinkW wa keep l.1 l.2 else wa) w),
        nl⟩ kill := rfl
  rw [hw2eq] at hX ⊢
  set w1 := (getLinks w kill).foldl
      (fun wa l => if l.1 ∈ nl then addLinkW wa keep l.1 l.2 else wa) w with hw1
  set w2 := nl.foldl
      (fun wa n =>
        match (getLinks wa n).find? (fun l => l.1 = kill) with
        | some l => addLinkW wa n keep l.2
        | none => wa) w1 with hw2
  have hrw : remove_node ⟨w2, nl⟩ kill =
      ⟨(nl.erase kill).foldl
        (fun wa n => modifyLinks wa n
          (fun ls => ls.filter (fun l => l.1 ≠ kill))) w2,
       nl.erase kill⟩ := by
    unfold remove_node
    dsimp only
    rw [if_pos hkill]
  rw [hrw] at hX ⊢
  dsimp only at hX ⊢
  have hXnl : X ∈ nl := List.mem_of_mem_erase hX
  have hXkill : X ≠ kill := by
    intro hc
    subst hc
    have h1 : nl.count X = 0 + 1 := by
      have h2 := List.count_pos_iff.mpr hkill
      have h3 := List.nodup_iff_count_le_one.mp hnd X
      omega
    have h4 : (nl.erase X).count X = 0 := by
      rw [List.count_erase_self, h1]
    rw [List.count_eq_zero] at h4
    exact h4 hX
  have hkeeper : keep ∈ nl.erase kill := (List.mem_erase_of_ne hkk).mpr hkeep
  have hstep1len : ∀ (wa : World V) (x : Nat × ℚ),
      (if x.1 ∈ nl then addLinkW wa keep x.1 x.2 else wa).length = wa.length := by
    intro wa x
    split
    · exact length_addLinkW wa keep x.1 x.2
    · rfl
  have hlen1 : w1.length = w.length :=
    length_foldl_preserved _ hstep1len _ w
  have hA : getLinks w1 keep = (getLinks w kill).foldl
      (fun acc l => if l.1 ∈ nl then addLink acc l.1 l.2 else acc)
      (getLinks w keep) := getLinks_p1_keep nl keep _ w hlen
  have hAnd : NoDupTargets (getLinks w1 keep) := by
    rw [hA]
    exact noDupTargets_p1_links nl _ _ (worldInv_getLinks hinv keep)
  have hP1 : ∀ Y, wToL (getLinks w1 keep) Y =
      wToL (getLinks w keep) Y +
        (if Y ∈ nl then wToL (getLinks w kill) Y else 0) := by
    intro Y
    rw [hA]
    exact wToL_p1_links nl _ _ Y
  have hqne : ∀ (wa : World V) (n j : Nat), j ≠ n →
      getLinks ((fun wa n =>
        match (getLinks wa n).find? (fun l => l.1 = kill) with
        | some l => addLinkW wa n keep l.2
        | none => wa) wa n) j = getLinks wa j := by
    intro wa n j hj
    dsimp only
    split
    · rename_i l hl
      exact getLinks_addLinkW_ne wa hj keep l.2
    · rfl
  have hqself : ∀ (wa : World V) (n : Nat), n < wa.length →
      getLinks ((fun wa n =>
        match (getLinks wa n).find? (fun l => l.1 = kill) with
        | some l => addLinkW wa n keep l.2
        | none => wa) wa n) n =
      (fun ls : LinkL =>
        match ls.find? (fun l => l.1 = kill) with
        | some l => addLink ls keep l.2
        | none => ls) (getLinks wa n) := by
    intro wa n hn
    dsimp only
    split
    · rename_i l hl
      exact getLinks_addLinkW_self wa hn keep l.2
    · rfl
  have hqlen : ∀ (wa : World V) (n : Nat),
      ((fun (wa : World V) (n : Nat) =>
        match (getLinks wa n).find? (fun l : Nat × ℚ => l.1 = kill) with
        | some l => addLinkW wa n keep l.2
        | none => wa) wa n).length = wa.length := by
    intro wa n
    dsimp only
    split
    · rename_i l hl
      exact length_addLinkW wa n keep l.2
    · rfl
  have hB : getLinks w2 keep =
      (fun ls : LinkL =>
        match ls.find? (fun l => l.1 = kill) with
        | some l => addLink ls keep l.2
        | none => ls) (getLinks w1 keep) := by
    rw [hw2]
    exact getLinks_foldl_once _
      (fun ls : LinkL =>
        match ls.find? (fun l => l.1 = kill) with
        | some l => addLink ls keep l.2
        | none => ls) hqne hqself hqlen nl w1 keep hnd hkeep
      (by rw [hlen1]; exact hlen)
  have hC : getLinks ((nl.erase kill).foldl
      (fun wa n => modifyLinks wa n
        (fun ls => ls.filter (fun l => l.1 ≠ kill))) w2) keep =
      (getLinks w2 keep).filter (fun l => decide (l.1 ≠ kill)) :=
    getLinks_removeFold kill (nl.erase kill) w2 keep hkeeper
  simp only [wTo]
  rw [hC, wToL_filter_ne _ hXkill, hB]
  dsimp only
  split
  · rename_i l hf
    have hl2 : l.2 = wToL (getLinks w1 keep) kill := wToL_of_find?_some hAnd hf
    by_cases hXk : X = keep
    · subst hXk
      rw [if_pos rfl, wToL_addLink_self, hl2]
      have e1 := hP1 X
      rw [if_pos hkeep] at e1
      have e2 := hP1 kill
      rw [if_pos hkill] at e2
      linarith [e1, e2]
    · rw [if_neg hXk, wToL_addLink_ne _ hXk]
      have e3 := hP1 X
      rw [if_pos hXnl] at e3
      exact e3
  · rename_i hf
    have hAkill : wToL (getLinks w1 keep) kill = 0 := wToL_of_find?_none hf
    by_cases hXk : X = keep
    · subst hXk
      rw [if_pos rfl]
      have e1 := hP1 X
      rw [if_pos hkeep] at e1
      have e2 := hP1 kill
      rw [if_pos hkill] at e2
      linarith [e1, e2, hAkill]
    · rw [if_neg hXk]
      have e3 := hP1 X
      rw [if_pos hXnl] at e3
      exact e3

/-- C1 counterexample: keep's own link to kill is redirected into keep's
self-link, so for X = keep the stated sum fails.  With keep = node 0 holding
a single link to kill = node 1 (weight 1) and kill holding no links, after
merge_nodes the weight of keep's link to keep is 1, while both original
weights to keep were 0. -/
theorem merge_nodes_counterexample :
    merge_nodes (⟨[⟨0, [(1, 1)]⟩, ⟨1, []⟩], [0, 1]⟩ : GraphSt Nat) 0 1 =
      ⟨[⟨0, [(0, 1)]⟩, ⟨1, []⟩], [0]⟩ ∧
    0 ∈ (merge_nodes (⟨[⟨0, [(1, 1)]⟩, ⟨1, []⟩], [0, 1]⟩ : GraphSt Nat) 0 1).nodeList ∧
    wTo ([⟨0, [(0, 1)]⟩, ⟨1, []⟩] : World Nat) 0 0 = 1 ∧
    wTo ([⟨0, [(1, 1)]⟩, ⟨1, []⟩] : World Nat) 0 0 +
      wTo ([⟨0, [(1, 1)]⟩, ⟨1, []⟩] : World Nat) 1 0 = 0 := by
  refine ⟨by decide, by decide, ?_, ?_⟩
  · norm_num [wTo, wToL, getLinks]
  · norm_num [wTo, wToL, getLinks]

/-- Witness for C1's amended theorem at the counterexample graph, target
X = keep = 0. -/
theorem merge_nodes_weight_conservation_witness :
    wTo (merge_nodes (⟨[⟨0, [(1, 1)]⟩, ⟨1, []⟩], [0, 1]⟩ : GraphSt Nat) 0 1).world
        0 0 =
      if (0 : Nat) = 0 then
        wTo (⟨[⟨0, [(1, 1)]⟩, ⟨1, []⟩], [0, 1]⟩ : GraphSt Nat).world 0 0 +
          wTo (⟨[⟨0, [(1, 1)]⟩, ⟨1, []⟩], [0, 1]⟩ : GraphSt Nat).world 1 0 +
          wTo (⟨[⟨0, [(1, 1)]⟩, ⟨1, []⟩], [0, 1]⟩ : GraphSt Nat).world 0 1 +
          wTo (⟨[⟨0, [(1, 1)]⟩, ⟨1, []⟩], [0, 1]⟩ : GraphSt Nat).world 1 1
      else
        wTo (⟨[⟨0, [(1, 1)]⟩, ⟨1, []⟩], [0, 1]⟩ : GraphSt Nat).world 0 0 +
          wTo (⟨[⟨0, [(1, 1)]⟩, ⟨1, []⟩], [0, 1]⟩ : GraphSt Nat).world 1 0 :=
  merge_nodes_weight_conservation
    (⟨[⟨0, [(1, 1)]⟩, ⟨1, []⟩], [0, 1]⟩ : GraphSt Nat) 0 1
    (by decide) (by decide) (by decide) (by decide) (by decide) (by decide)
    0 (by decide)

/-- C6: from_string on "I have a cat." with distance_weights {1: 1} and
default settings produces one node per token in token order ("I", "have",
"a", "cat", "."), each with a single link of weight 1 to the next token's
node, the last wrapping to the first (index modulo the token count). -/
theorem from_string_single_chain :
    from_string "I have a cat." [((1 : Int), (1 : ℚ))] false =
      ⟨[⟨"I", [(1, 1)]⟩, ⟨"have", [(2, 1)]⟩, ⟨"a", [(3, 1)]⟩,
        ⟨"cat", [(4, 1)]⟩, ⟨".", [(0, 1)]⟩], [0, 1, 2, 3, 4]⟩ := by
  decide

end Blur